import Mathlib

/-!
# Elementwise tensor operators of `Source/Math/TensorOps.h`

A shallow embedding of the scalar kernels of the CNTK tensor-operator library.

* The values of the element type `ElemType` (float / double / half) are taken in a linearly
  ordered field `K` (instantiated at `ℚ` for evaluation and at `ℝ` where a transcendental library
  function is needed).  The kernels are given in two readings.  In the *exact* reading every
  arithmetic operation is the field operation; it is used where a statement depends only on
  which branch is taken and which expression is evaluated.  In the *rounded* reading (namespace
  `Rounded`) the result of every addition, subtraction, multiplication and division is passed
  through a rounding function `fl`; with `fl = roundNE p` this is IEEE round-to-nearest-even
  arithmetic with `p` significant bits (`p = 24` for float, `p = 53` for double) on the range
  where neither overflow nor underflow occurs.  Infinities and NaN *inputs* are not modelled; a
  NaN *result* that the code produces explicitly (`T(NAN)`) is a constructor of `Outcome`.
* The library functions `exp_`, `log_`, `log1p_`, `sqrt_`, `pow_` (the overloads generated by
  `OverloadUnaryMathFns` and `OverloadBinaryMathFns`) are parameters of the kernels that call them;
  theorems that need their mathematical meaning instantiate them with `Real.exp`, `Real.log`,
  `fun t => Real.log (1 + t)`, `Real.sqrt` and `Real.rpow`.
* The constants `EPS_IN_INVERSE`, `EPS_IN_LOG` and `LOG_OF_EPS_IN_LOG` are defined in
  `CommonMatrix.h`, which is not among the translated sources; they are parameters of the kernels
  that use them, the two epsilons assumed positive where that matters.
* The reduced-precision overload of `fabs_` works on the bits of its argument; there a value is
  its 16-bit pattern, a natural number below `2^16`.
* The machine type `int` is 32 bits wide; `static_cast<int>` of a value whose truncation does not
  fit has undefined behaviour in C++ and is modelled by `none`.  What the x86-64 conversion
  instruction returns in that case is `cvtt_x86`.
-/

namespace CNTK

/-! ## Definitions -/

section Kernels

variable {K : Type} [LinearOrderedField K]

/-- The overload `fabs_` for float and double (`OverloadUnaryMathFns(fabs)`): the library absolute
value. -/
def fabs_ (f : K) : K := |f|

/-- The denominator after the clipping block of `ClippedQuotient`:
`if (fabs_(b) < EPS_IN_INVERSE) { if (b > 0) b = EPS_IN_INVERSE; else b = -EPS_IN_INVERSE; }`. -/
def clippedDenominator (EPS_IN_INVERSE b : K) : K :=
  if fabs_ b < EPS_IN_INVERSE then
    (if b > 0 then EPS_IN_INVERSE else -EPS_IN_INVERSE)
  else b

/-- The kernel `ClippedQuotient(a, b)`: clip the denominator, then `return a / b`. -/
def ClippedQuotient (EPS_IN_INVERSE a b : K) : K :=
  a / clippedDenominator EPS_IN_INVERSE b

/-- The operator `DefBinaryOp(ElementwiseQuotient, ClippedQuotient(a, b))`. -/
def OpElementwiseQuotient (EPS_IN_INVERSE a b : K) : K :=
  ClippedQuotient EPS_IN_INVERSE a b

/-- Result of a kernel that may return `T(NAN)` or run into undefined behaviour. -/
inductive Outcome (K : Type) where
  /-- an ordinary number -/
  | value (x : K) : Outcome K
  /-- the explicit `T(NAN)` result -/
  | nan : Outcome K
  /-- the kernel executed a step with undefined behaviour -/
  | undefined : Outcome K
  deriving DecidableEq

/-- Smallest value of the 32-bit `int`. -/
def INT_MIN : Int := -2147483648

/-- Largest value of the 32-bit `int`. -/
def INT_MAX : Int := 2147483647

/-- The conversion `static_cast<int>(x)` of a floating value: the fractional part is discarded
(truncation toward zero); the behaviour is undefined (`none`) when the truncated value cannot be
represented in `int`. -/
def static_cast_int [FloorRing K] (x : K) : Option Int :=
  let t : Int := if 0 ≤ x then ⌊x⌋ else ⌈x⌉
  if INT_MIN ≤ t ∧ t ≤ INT_MAX then some t else none

/-- The kernel `safepow_(base, exponent)`; `pow_` is the library power function. -/
def safepow_ [FloorRing K] (pow_ : K → K → K) (base exponent : K) : Outcome K :=
  if exponent = 0 then Outcome.value 1
  else if base = 0 then Outcome.value 0
  else if base > 0 then Outcome.value (pow_ base exponent)
  else
    match static_cast_int exponent with
    | none => Outcome.undefined
    | some exp_as_int =>
      if exponent ≠ (exp_as_int : K) then Outcome.nan
      else Outcome.value
        (pow_ (fabs_ base) exponent * ((1 - 2 * (Int.land exp_as_int 1) : Int) : K))

/-- The operator `DefBinaryOp(Pow, safepow_(a, b))`. -/
def OpPow [FloorRing K] (pow_ : K → K → K) (a b : K) : Outcome K :=
  safepow_ pow_ a b

/-- The float-to-int conversion as compiled for x86-64 (instructions `cvttss2si`, `cvttsd2si`):
truncation toward zero, and the value `0x80000000 = INT_MIN` when the truncated value does not
fit `int`. -/
def cvtt_x86 [FloorRing K] (x : K) : Int :=
  let t : Int := if 0 ≤ x then ⌊x⌋ else ⌈x⌉
  if INT_MIN ≤ t ∧ t ≤ INT_MAX then t else INT_MIN

/-- The kernel `safepow_(base, exponent)` with `static_cast<int>` carried out by a given total
conversion `conv`, as in compiled code. -/
def safepow_conv (conv : K → Int) (pow_ : K → K → K) (base exponent : K) : Outcome K :=
  if exponent = 0 then Outcome.value 1
  else if base = 0 then Outcome.value 0
  else if base > 0 then Outcome.value (pow_ base exponent)
  else
    let exp_as_int : Int := conv exponent
    if exponent ≠ (exp_as_int : K) then Outcome.nan
    else Outcome.value
      (pow_ (fabs_ base) exponent * ((1 - 2 * (Int.land exp_as_int 1) : Int) : K))

/-- The kernel `Sigmoid(z)` (the branch compiled under `#if 1`); `exp_` is the library
exponential. -/
def Sigmoid (exp_ : K → K) (z : K) : K :=
  let negElem := -z
  let e := exp_ negElem
  1 / (e + 1)

/-- The kernel `StableSigmoid(z)`. -/
def StableSigmoid (exp_ : K → K) (z : K) : K :=
  let q := exp_ (-fabs_ z)
  let numer := if z > 0 then 1 else q
  numer / (1 + q)

/-- The operator `DefUnaryOp(Sigmoid, Sigmoid(a))`. -/
def OpSigmoid (exp_ : K → K) (a : K) : K := Sigmoid exp_ a

/-- The operator `DefUnaryOp(StableSigmoid, StableSigmoid(a))`. -/
def OpStableSigmoid (exp_ : K → K) (a : K) : K := StableSigmoid exp_ a

/-- The kernel `SigmoidDerivative(z)`: `v = Sigmoid(z); return v * (1 - v)`. -/
def SigmoidDerivative (exp_ : K → K) (z : K) : K :=
  let v := Sigmoid exp_ z
  v * (1 - v)

/-- The kernel `StableSigmoidDerivative(z)`: `v = StableSigmoid(z); return v * (1 - v)`. -/
def StableSigmoidDerivative (exp_ : K → K) (z : K) : K :=
  let v := StableSigmoid exp_ z
  v * (1 - v)

/-- The kernel `LinearRectifierDerivative(z)`: `z > 0 ? 1 : 0`. -/
def LinearRectifierDerivative (z : K) : K :=
  if z > 0 then 1 else 0

/-- The kernel `Sqrt(z)`: `sqrt_(z > 0 ? z : 0)`; `sqrt_` is the library square root. -/
def Sqrt (sqrt_ : K → K) (z : K) : K :=
  sqrt_ (if z > 0 then z else 0)

/-- The kernel `ClippedLog(z)`: `z < EPS_IN_LOG ? LOG_OF_EPS_IN_LOG : log_(z)`; `log_` is the
library logarithm, the two constants come from `CommonMatrix.h`. -/
def ClippedLog (log_ : K → K) (EPS_IN_LOG LOG_OF_EPS_IN_LOG z : K) : K :=
  if z < EPS_IN_LOG then LOG_OF_EPS_IN_LOG else log_ z

/-- The pair `(x, y)` after the swap block of `LogAdd`:
`if (x < y) { temp = x; x = y; y = temp; }`. -/
def LogAddSwap (x y : K) : K × K :=
  if x < y then (y, x) else (x, y)

/-- The kernel `LogAdd(x, y)`: swap, then `return x + log1p_(exp_(y - x))`. -/
def LogAdd (exp_ log1p_ : K → K) (x y : K) : K :=
  let p := LogAddSwap x y
  p.1 + log1p_ (exp_ (p.2 - p.1))

/-- The operator `DefUnaryOp(Sqrt, Sqrt(a))`. -/
def OpSqrt (sqrt_ : K → K) (a : K) : K := Sqrt sqrt_ a

/-- The operator `DefUnaryOp(Log, ClippedLog(a))`. -/
def OpLog (log_ : K → K) (EPS_IN_LOG LOG_OF_EPS_IN_LOG a : K) : K :=
  ClippedLog log_ EPS_IN_LOG LOG_OF_EPS_IN_LOG a

/-- The operator `DefUnaryOp(LinearRectifier, a > 0 ? a : (ElemType)0)`. -/
def OpLinearRectifier (a : K) : K := if a > 0 then a else 0

/-- The operator `DefUnaryOp(ExponentialLinearUnit, a >= 0 ? a : (ElemType)(exp_(a)-1))`. -/
def OpExponentialLinearUnit (exp_ : K → K) (a : K) : K :=
  if a ≥ 0 then a else exp_ a - 1

/-- The operator `DefBinaryOp(ElementwiseProductWithSigmoidDerivativeFromOutput,
a*(b*(1 - b)))`, `b` being the output. -/
def OpElementwiseProductWithSigmoidDerivativeFromOutput (a b : K) : K :=
  a * (b * (1 - b))

/-- The operator `DefBinaryOp(ElementwiseProductWithLinearRectifierDerivativeFromOutput,
b > (ElemType)0 ? a : (ElemType)0)`. -/
def OpElementwiseProductWithLinearRectifierDerivativeFromOutput (a b : K) : K :=
  if b > 0 then a else 0

/-- The operator `DefBinaryOp(ElementwiseProductWithExponentialLinearUnitDerivativeFromOutput,
b >= 0 ? a : a*((ElemType)1+b))`, `b` being the output. -/
def OpElementwiseProductWithExponentialLinearUnitDerivativeFromOutput (a b : K) : K :=
  if b ≥ 0 then a else a * (1 + b)

/-- The operator `DefTernaryOp(Clip, c < a ? a : (c > b ? b : c))`: `a` is the minimum, `b` the
maximum, `c` the data. -/
def OpClip (a b c : K) : K :=
  if c < a then a else (if c > b then b else c)

/-- The operator `DefBinaryOp(ElementwiseProductWithLogDerivativeFromOutput, a* exp_(-b))`,
`b` being the output of the logarithm. -/
def OpElementwiseProductWithLogDerivativeFromOutput (exp_ : K → K) (a b : K) : K :=
  a * exp_ (-b)

/-- The operator `DefTernaryOp(ElementwiseProductWithLogSumDerivative,
a * StableSigmoid(c - b))`. -/
def OpElementwiseProductWithLogSumDerivative (exp_ : K → K) (a b c : K) : K :=
  a * StableSigmoid exp_ (c - b)

end Kernels

section Rounding

variable {K : Type} [LinearOrderedField K] [FloorRing K]

/-- The integer nearest to `t`, the even one of the two when `t` lies half-way. -/
def roundHalfEven (t : K) : Int :=
  let f : Int := ⌊t⌋
  let r : K := t - f
  if r < 1 / 2 then f
  else if 1 / 2 < r then f + 1
  else if f % 2 = 0 then f else f + 1

/-- Rounding to the nearest number with `p` significant bits, ties to even (the IEEE default
rounding), the exponent range taken unbounded: `x` is scaled by the power of two that brings its
magnitude into `[2^(p-1), 2^p)`, rounded to an integer and scaled back. -/
def roundNE (p : ℕ) (x : K) : K :=
  if x = 0 then 0
  else
    let e : Int := Int.log 2 |x| + 1 - (p : Int)
    (roundHalfEven (x / (2 : K) ^ e) : K) * (2 : K) ^ e

/-- The rounding of IEEE single precision (`float`): 24 significant bits. -/
abbrev binary32 : K → K := roundNE 24

/-- The rounding of IEEE double precision (`double`): 53 significant bits. -/
abbrev binary64 : K → K := roundNE 53

/-- A library function that returns the rounded value of the mathematical function `f`. -/
def correctlyRounded (fl f : K → K) : K → K :=
  fun t => fl (f t)

end Rounding

namespace Rounded

variable {K : Type} [LinearOrderedField K]

/-- The kernel `Sigmoid(z)`, rounded reading: `e + 1` and `1 / (e + 1)` are rounded. -/
def Sigmoid (fl exp_ : K → K) (z : K) : K :=
  let negElem := -z
  let e := exp_ negElem
  fl (1 / fl (e + 1))

/-- The kernel `StableSigmoid(z)`, rounded reading: `1 + q` and `numer / (1 + q)` are
rounded. -/
def StableSigmoid (fl exp_ : K → K) (z : K) : K :=
  let q := exp_ (-fabs_ z)
  let numer := if z > 0 then 1 else q
  fl (numer / fl (1 + q))

/-- The operator `ExponentialLinearUnit`, `a >= 0 ? a : (ElemType)(exp_(a)-1)`, rounded
reading. -/
def OpExponentialLinearUnit (fl exp_ : K → K) (a : K) : K :=
  if a ≥ 0 then a else fl (exp_ a - 1)

/-- The operator `ElementwiseProductWithExponentialLinearUnitDerivativeFromOutput`,
`b >= 0 ? a : a*((ElemType)1+b)`, rounded reading. -/
def OpElementwiseProductWithExponentialLinearUnitDerivativeFromOutput (fl : K → K) (a b : K) :
    K :=
  if b ≥ 0 then a else fl (a * fl (1 + b))

/-- The operator `ElementwiseProductWithLogDerivativeFromOutput`, `a* exp_(-b)`, rounded
reading. -/
def OpElementwiseProductWithLogDerivativeFromOutput (fl exp_ : K → K) (a b : K) : K :=
  fl (a * exp_ (-b))

/-- The operator `ElementwiseProductWithLogSumDerivative`, `a * StableSigmoid(c - b)`, rounded
reading. -/
def OpElementwiseProductWithLogSumDerivative (fl exp_ : K → K) (a b c : K) : K :=
  fl (a * StableSigmoid fl exp_ (fl (c - b)))

end Rounded

section HalfBits

/-- The read `*(short*)&v` of a reduced-precision value with the 16-bit pattern `v`: the pattern
taken as a signed 16-bit integer (two's complement). -/
def half_as_short (v : Nat) : Int :=
  if v < 32768 then (v : Int) else (v : Int) - 65536

/-- The conversion of an `int` to `short` in the initialisation `short t = ...`: reduction
modulo `2^16` into `[-32768, 32767]`. -/
def int_to_short (n : Int) : Int :=
  (n + 32768) % 65536 - 32768

/-- The read `*(half*)(&t)` of a `short`: its 16-bit pattern. -/
def short_as_half (t : Int) : Nat :=
  (t % 65536).toNat

/-- The overload `fabs_(half v)`: `short t = *(short*)&v & 0x7FFF; return *(half*)(&t);`, on
16-bit patterns.  The operand of `&` is promoted to `int`, which keeps its value. -/
def fabs_half (v : Nat) : Nat :=
  let t : Int := int_to_short (Int.land (half_as_short v) 0x7FFF)
  short_as_half t

/-- A branch-based absolute value on 16-bit patterns, after the words of the specification:
negate (flip the sign bit, bit 15) exactly when the sign bit is set. -/
def fabs_branch (v : Nat) : Nat :=
  if v.testBit 15 then v ^^^ 0x8000 else v

end HalfBits

/-! ## Clipped quotient -/

section QuotientLemmas

variable {K : Type} [LinearOrderedField K]

theorem clippedDenominator_zero (eps : K) (heps : 0 < eps) :
    clippedDenominator eps 0 = -eps := by
  simp [clippedDenominator, fabs_, heps]

theorem clippedDenominator_of_le (eps b : K) (h : eps ≤ |b|) :
    clippedDenominator eps b = b := by
  simp [clippedDenominator, fabs_, not_lt.mpr h]

theorem clippedDenominator_of_pos_lt (eps b : K) (hb : 0 < b) (h : b < eps) :
    clippedDenominator eps b = eps := by
  have : |b| < eps := by rw [abs_of_pos hb]; exact h
  simp [clippedDenominator, fabs_, this, hb]

theorem clippedDenominator_of_neg_lt (eps b : K) (hb : b < 0) (h : -eps < b) :
    clippedDenominator eps b = -eps := by
  have h1 : |b| < eps := by rw [abs_of_neg hb]; linarith
  have h2 : ¬ (0 < b) := not_lt.mpr hb.le
  simp [clippedDenominator, fabs_, h1, h2]

theorem clippedDenominator_cases (eps b : K) (heps : 0 < eps) :
    (eps ≤ |b| ∧ clippedDenominator eps b = b) ∨
    (0 < b ∧ b < eps ∧ clippedDenominator eps b = eps) ∨
    (b ≤ 0 ∧ -eps < b ∧ clippedDenominator eps b = -eps) := by
  rcases le_or_lt eps |b| with hle | hlt
  · exact Or.inl ⟨hle, clippedDenominator_of_le eps b hle⟩
  · have hb := abs_lt.mp hlt
    rcases lt_trichotomy b 0 with hneg | hzero | hpos
    · exact Or.inr (Or.inr ⟨hneg.le, hb.1, clippedDenominator_of_neg_lt eps b hneg hb.1⟩)
    · subst hzero
      exact Or.inr (Or.inr ⟨le_refl _, hb.1, clippedDenominator_zero eps heps⟩)
    · exact Or.inr (Or.inl ⟨hpos, hb.2, clippedDenominator_of_pos_lt eps b hpos hb.2⟩)

theorem clippedDenominator_abs_ge (eps b : K) (heps : 0 < eps) :
    eps ≤ |clippedDenominator eps b| := by
  rcases clippedDenominator_cases eps b heps with ⟨h, e⟩ | ⟨_, _, e⟩ | ⟨_, _, e⟩
  · rw [e]; exact h
  · rw [e, abs_of_pos heps]
  · rw [e, abs_neg, abs_of_pos heps]

theorem clippedDenominator_pos_iff (eps b : K) (heps : 0 < eps) :
    0 < clippedDenominator eps b ↔ 0 < b := by
  rcases clippedDenominator_cases eps b heps with ⟨_, e⟩ | ⟨h, _, e⟩ | ⟨h, _, e⟩
  · rw [e]
  · rw [e]; exact ⟨fun _ => h, fun _ => heps⟩
  · rw [e]
    constructor
    · intro h1; linarith
    · intro h1; exact absurd h1 (not_lt.mpr h)

theorem clippedDenominator_neg_iff (eps b : K) (heps : 0 < eps) (hb : b ≠ 0) :
    clippedDenominator eps b < 0 ↔ b < 0 := by
  rcases clippedDenominator_cases eps b heps with ⟨_, e⟩ | ⟨h, _, e⟩ | ⟨h, _, e⟩
  · rw [e]
  · rw [e]
    constructor
    · intro h1; linarith
    · intro h1; linarith
  · rw [e]
    exact ⟨fun _ => lt_of_le_of_ne h hb, fun _ => by linarith⟩

end QuotientLemmas


section QuotientClaims

variable {K : Type} [LinearOrderedField K]

/-- C1 (as stated, refuted): with `EPS_IN_INVERSE = 10^-30`, `ClippedQuotient(1, 0)` and
`OpElementwiseQuotient(1, 0)` are `-10^30`, not `1 / EPS_IN_INVERSE = 10^30`: the zero denominator
is replaced by the negative epsilon. -/
theorem zero_denominator_takes_negative_eps :
    ClippedQuotient (1 / 10 ^ 30 : ℚ) 1 0 = -10 ^ 30 ∧
    OpElementwiseQuotient (1 / 10 ^ 30 : ℚ) 1 0 = -10 ^ 30 ∧
    ClippedQuotient (1 / 10 ^ 30 : ℚ) 1 0 ≠ 1 / (1 / 10 ^ 30) := by
  have h : clippedDenominator (1 / 10 ^ 30 : ℚ) 0 = -(1 / 10 ^ 30) :=
    clippedDenominator_zero _ (by norm_num)
  refine ⟨?_, ?_, ?_⟩ <;> simp only [OpElementwiseQuotient, ClippedQuotient, h] <;> norm_num

/-- C1 (amended): for every numerator `a` and every positive `EPS_IN_INVERSE`,
`ClippedQuotient(a, 0)` (and hence `OpElementwiseQuotient(a, 0)`) is `a / (-EPS_IN_INVERSE)`:
a zero denominator is replaced by the negative epsilon, so the result is the number
`-(a / EPS_IN_INVERSE)`, whose sign is opposite to that of `a`. -/
theorem ClippedQuotient_zero_denominator (eps a : K) (heps : 0 < eps) :
    ClippedQuotient eps a 0 = a / (-eps) ∧
    OpElementwiseQuotient eps a 0 = a / (-eps) ∧
    ClippedQuotient eps a 0 = -(a / eps) ∧
    (0 < a → ClippedQuotient eps a 0 < 0) ∧
    (a < 0 → 0 < ClippedQuotient eps a 0) ∧
    (a = 0 → ClippedQuotient eps a 0 = 0) := by
  have h : ClippedQuotient eps a 0 = a / (-eps) := by
    simp only [ClippedQuotient, clippedDenominator_zero eps heps]
  have h' : ClippedQuotient eps a 0 = -(a / eps) := by rw [h, div_neg]
  refine ⟨h, h, h', ?_, ?_, ?_⟩
  · intro ha
    rw [h']
    exact neg_neg_of_pos (div_pos ha heps)
  · intro ha
    rw [h']
    exact neg_pos.mpr (div_neg_of_neg_of_pos ha heps)
  · intro ha
    rw [h', ha, zero_div, neg_zero]

theorem ClippedQuotient_zero_denominator_witness :
    (0 : ℚ) < 1 / 2 ∧ ClippedQuotient (1 / 2 : ℚ) 3 0 = 3 / (-(1 / 2)) :=
  ⟨by norm_num, (ClippedQuotient_zero_denominator (1 / 2 : ℚ) 3 (by norm_num)).1⟩

/-- C2: for positive `EPS_IN_INVERSE` and nonzero `b`: when `|b| >= eps` (boundary included) the
quotient is `a / b`; when `0 < b < eps` it is `a / eps`; when `-eps < b < 0` it is `a / (-eps)`.
The divisor actually used has magnitude at least `eps` and the sign of `b`. -/
theorem ClippedQuotient_nonzero_denominator (eps a b : K) (heps : 0 < eps) (hb : b ≠ 0) :
    (eps ≤ |b| → ClippedQuotient eps a b = a / b) ∧
    (0 < b → b < eps → ClippedQuotient eps a b = a / eps) ∧
    (-eps < b → b < 0 → ClippedQuotient eps a b = a / (-eps)) ∧
    ClippedQuotient eps a b = a / clippedDenominator eps b ∧
    eps ≤ |clippedDenominator eps b| ∧
    (0 < clippedDenominator eps b ↔ 0 < b) ∧
    (clippedDenominator eps b < 0 ↔ b < 0) := by
  refine ⟨?_, ?_, ?_, rfl, ?_, ?_, ?_⟩
  · intro h
    simp only [ClippedQuotient, clippedDenominator_of_le eps b h]
  · intro h0 h1
    simp only [ClippedQuotient, clippedDenominator_of_pos_lt eps b h0 h1]
  · intro h0 h1
    simp only [ClippedQuotient, clippedDenominator_of_neg_lt eps b h1 h0]
  · exact clippedDenominator_abs_ge eps b heps
  · exact clippedDenominator_pos_iff eps b heps
  · exact clippedDenominator_neg_iff eps b heps hb

theorem ClippedQuotient_nonzero_denominator_witness :
    (0 : ℚ) < 1 / 2 ∧ (1 / 4 : ℚ) ≠ 0 ∧ ClippedQuotient (1 / 2 : ℚ) 3 (1 / 4) = 3 / (1 / 2) :=
  ⟨by norm_num, by norm_num,
    (ClippedQuotient_nonzero_denominator (1 / 2 : ℚ) 3 (1 / 4) (by norm_num) (by norm_num)).2.1
      (by norm_num) (by norm_num)⟩

end QuotientClaims

/-! ## Safe power -/

section SafepowLemmas

variable {K : Type} [LinearOrderedField K] [FloorRing K]

theorem ldiff_one (m : ℕ) : Nat.ldiff 1 m = 1 - m % 2 := by
  apply Nat.eq_of_testBit_eq
  intro k
  rw [Nat.testBit_ldiff]
  rcases Nat.mod_two_eq_zero_or_one m with h | h
  · rw [h]
    cases k with
    | zero => simp [Nat.testBit_zero, h]
    | succ k => simp [Nat.testBit_succ]
  · rw [h]
    cases k with
    | zero => simp [Nat.testBit_zero, h]
    | succ k => simp [Nat.testBit_succ]

/-- The test `exp_as_int & 1` extracts the parity, also for negative values. -/
theorem land_one (n : ℤ) : Int.land n 1 = n % 2 := by
  cases n with
  | ofNat m =>
    show ((m &&& 1 : ℕ) : ℤ) = (m : ℤ) % 2
    rw [Nat.and_one_is_mod]
    norm_cast
  | negSucc m =>
    show ((Nat.ldiff 1 m : ℕ) : ℤ) = Int.negSucc m % 2
    rw [ldiff_one, Int.negSucc_eq]
    omega

/-- The factor `1 - 2 * (exp_as_int & 1)` is `1` for an even and `-1` for an odd integer. -/
theorem sign_factor (n : ℤ) : (1 - 2 * Int.land n 1 : ℤ) = if Even n then 1 else -1 := by
  rw [land_one]
  by_cases h : Even n
  · rw [if_pos h, Int.even_iff.mp h]; rfl
  · rw [if_neg h, Int.not_even_iff.mp h]; rfl

theorem static_cast_int_intCast (n : ℤ) (h1 : INT_MIN ≤ n) (h2 : n ≤ INT_MAX) :
    static_cast_int (n : K) = some n := by
  simp [static_cast_int, h1, h2]

theorem static_cast_int_intCast_out_of_range (n : ℤ) (h : n < INT_MIN ∨ INT_MAX < n) :
    static_cast_int (n : K) = none := by
  have : ¬ (INT_MIN ≤ n ∧ n ≤ INT_MAX) := by
    rintro ⟨h1, h2⟩
    rcases h with h | h
    · exact absurd h1 (not_le.mpr h)
    · exact absurd h2 (not_le.mpr h)
  simp [static_cast_int, this]

/-- On a negative base and a nonzero exponent `safepow_` runs its last branch. -/
theorem safepow_neg_base (pow_ : K → K → K) (base exponent : K) (hb : base < 0)
    (he : exponent ≠ 0) :
    safepow_ pow_ base exponent =
      match static_cast_int exponent with
      | none => Outcome.undefined
      | some exp_as_int =>
        if exponent ≠ (exp_as_int : K) then Outcome.nan
        else Outcome.value
          (pow_ (fabs_ base) exponent * ((1 - 2 * (Int.land exp_as_int 1) : Int) : K)) := by
  have h1 : base ≠ 0 := ne_of_lt hb
  have h2 : ¬ (base > 0) := not_lt.mpr hb.le
  simp only [safepow_, if_neg he, if_neg h1, if_neg h2]

/-- For a negative base and an integer exponent that fits the machine `int`, `safepow_` returns
the library power of `|base|`, negated exactly when the exponent is odd. -/
theorem safepow_neg_base_int (pow_ : K → K → K) (base : K) (n : ℤ) (hb : base < 0)
    (hn : n ≠ 0) (h1 : INT_MIN ≤ n) (h2 : n ≤ INT_MAX) :
    safepow_ pow_ base (n : K) =
      Outcome.value (if Even n then pow_ |base| (n : K) else -pow_ |base| (n : K)) := by
  have he : (n : K) ≠ 0 := Int.cast_ne_zero.mpr hn
  rw [safepow_neg_base pow_ base (n : K) hb he, static_cast_int_intCast n h1 h2]
  simp only [ne_eq, not_true_eq_false, if_false, sign_factor, fabs_]
  by_cases h : Even n
  · simp [h]
  · simp [h]

/-- The same with the real power function for `pow_`: the result is the integer power
`base ^ n`. -/
theorem safepow_rpow_neg_base_int (base : ℝ) (n : ℤ) (hb : base < 0)
    (h1 : INT_MIN ≤ n) (h2 : n ≤ INT_MAX) :
    safepow_ Real.rpow base (n : ℝ) = Outcome.value (base ^ n) := by
  by_cases hn : n = 0
  · subst hn
    simp [safepow_]
  · rw [safepow_neg_base_int Real.rpow base n hb hn h1 h2]
    have habs : base = -|base| := by rw [abs_of_neg hb, neg_neg]
    have hpow : Real.rpow |base| (n : ℝ) = |base| ^ n := Real.rpow_intCast _ _
    rw [hpow]
    by_cases h : Even n
    · rw [if_pos h]
      conv_rhs => rw [habs, Even.neg_zpow h]
    · rw [if_neg h]
      conv_rhs => rw [habs, Odd.neg_zpow (Int.not_even_iff_odd.mp h)]

/-- For a negative base and an exponent that is not an integer but whose truncation fits the
machine `int`, `safepow_` returns NaN. -/
theorem safepow_neg_base_non_int (pow_ : K → K → K) (base exponent : K) (hb : base < 0)
    (hni : ∀ n : ℤ, exponent ≠ (n : K)) (t : ℤ) (ht : static_cast_int exponent = some t) :
    safepow_ pow_ base exponent = Outcome.nan := by
  have he : exponent ≠ 0 := by
    have := hni 0
    simpa using this
  rw [safepow_neg_base pow_ base exponent hb he, ht]
  simp [hni t]

/-- The NaN branch is taken exactly for a negative base and a nonzero exponent whose conversion
to `int` is defined and differs from it. -/
theorem safepow_eq_nan_iff (pow_ : K → K → K) (base exponent : K) :
    safepow_ pow_ base exponent = Outcome.nan ↔
      exponent ≠ 0 ∧ base < 0 ∧ ∃ t : ℤ, static_cast_int exponent = some t ∧ exponent ≠ (t : K) := by
  by_cases he : exponent = 0
  · simp [safepow_, he]
  by_cases hb0 : base = 0
  · simp [safepow_, he, hb0]
  by_cases hb : base > 0
  · simp [safepow_, he, hb0, hb, not_lt.mpr hb.le]
  have hneg : base < 0 := lt_of_le_of_ne (not_lt.mp hb) hb0
  rw [safepow_neg_base pow_ base exponent hneg he]
  cases hc : static_cast_int exponent with
  | none => simp [he, hneg]
  | some t =>
    by_cases hne : exponent = (t : K)
    · simp [he, hneg, hne]
    · simp [he, hneg, hne]

/-- The undefined conversion is reached exactly for a negative base and a nonzero exponent whose
truncation does not fit the machine `int`. -/
theorem safepow_eq_undefined_iff (pow_ : K → K → K) (base exponent : K) :
    safepow_ pow_ base exponent = Outcome.undefined ↔
      exponent ≠ 0 ∧ base < 0 ∧ static_cast_int exponent = none := by
  by_cases he : exponent = 0
  · simp [safepow_, he]
  by_cases hb0 : base = 0
  · simp [safepow_, he, hb0]
  by_cases hb : base > 0
  · simp [safepow_, he, hb0, hb, not_lt.mpr hb.le]
  have hneg : base < 0 := lt_of_le_of_ne (not_lt.mp hb) hb0
  rw [safepow_neg_base pow_ base exponent hneg he]
  cases hc : static_cast_int exponent with
  | none => simp [he, hneg]
  | some t =>
    by_cases hne : exponent = (t : K)
    · simp [he, hneg, hne]
    · simp [he, hneg, hne]

end SafepowLemmas

section SafepowConv

variable {K : Type} [LinearOrderedField K]

/-- A negative base with an exponent that is not an integer gives NaN, whatever integer the
conversion returns. -/
theorem safepow_conv_non_int (conv : K → Int) (pow_ : K → K → K) (base exponent : K)
    (hb : base < 0) (hni : ∀ n : ℤ, exponent ≠ (n : K)) :
    safepow_conv conv pow_ base exponent = Outcome.nan := by
  have he : exponent ≠ 0 := by
    have := hni 0
    simpa using this
  have h1 : base ≠ 0 := ne_of_lt hb
  have h2 : ¬ (base > 0) := not_lt.mpr hb.le
  simp [safepow_conv, he, h1, h2, hni (conv exponent)]

end SafepowConv

section SafepowClaims

variable {K : Type} [LinearOrderedField K] [FloorRing K]

/-- A negative base with an integer exponent outside the range of `int` reaches the undefined
conversion. -/
theorem safepow_neg_base_int_out_of_range (pow_ : K → K → K) (base : K) (n : ℤ) (hb : base < 0)
    (h : n < INT_MIN ∨ INT_MAX < n) :
    safepow_ pow_ base (n : K) = Outcome.undefined := by
  have hn : n ≠ 0 := by
    rintro rfl
    rcases h with h | h
    · exact absurd h (by decide)
    · exact absurd h (by decide)
  have he : (n : K) ≠ 0 := Int.cast_ne_zero.mpr hn
  rw [safepow_neg_base pow_ base (n : K) hb he, static_cast_int_intCast_out_of_range n h]

/-- The documented example `safepow_(-8, 3) == -512`. -/
theorem safepow_neg_eight_three : safepow_ Real.rpow (-8 : ℝ) 3 = Outcome.value (-512) := by
  have h := safepow_rpow_neg_base_int (-8) 3 (by norm_num) (by decide) (by decide)
  have e : ((3 : ℤ) : ℝ) = 3 := by norm_num
  rw [e] at h
  rw [h]
  norm_num

/-- C3 (evaluation at the failing input): base `-1` with the exponent `2147483648 = 2^31`, an
exact and even integer.  The integer power `(-1)^(2^31)` is `1`, but `safepow_` converts the
exponent with `static_cast<int>`, which is undefined for this value, so no number is returned. -/
theorem safepow_neg_one_two_pow_31 :
    safepow_ Real.rpow (-1 : ℝ) 2147483648 = Outcome.undefined ∧
    ((-1 : ℝ) ^ (2147483648 : ℤ) = 1) ∧
    safepow_ Real.rpow (-1 : ℝ) 2147483648 ≠ Outcome.value ((-1 : ℝ) ^ (2147483648 : ℤ)) := by
  have h : safepow_ Real.rpow (-1 : ℝ) 2147483648 = Outcome.undefined := by
    have := safepow_neg_base_int_out_of_range Real.rpow (-1 : ℝ) 2147483648 (by norm_num)
      (Or.inr (by decide))
    exact_mod_cast this
  refine ⟨h, ?_, ?_⟩
  · exact Even.neg_one_zpow (by decide)
  · rw [h]
    exact fun hc => Outcome.noConfusion hc

/-- C4: for every base `b` (positive, negative or zero), `safepow_(b, 0)` is `1`, whatever the
library power function; in particular `safepow_(0, 0) = 1`. -/
theorem safepow_exponent_zero (pow_ : K → K → K) (b : K) :
    safepow_ pow_ b 0 = Outcome.value 1 ∧ safepow_ pow_ 0 0 = Outcome.value 1 := by
  simp [safepow_]

/-- C5: for every exponent `e ≠ 0`, `safepow_(0, e)` is `0`, whatever the library power function
(it is not consulted). -/
theorem safepow_base_zero (pow_ : K → K → K) (e : K) (he : e ≠ 0) :
    safepow_ pow_ 0 e = Outcome.value 0 := by
  simp [safepow_, he]

theorem safepow_base_zero_witness :
    (5 : ℚ) ≠ 0 ∧ safepow_ (fun _ _ => (7 : ℚ)) 0 5 = Outcome.value 0 :=
  ⟨by norm_num, safepow_base_zero (fun _ _ => (7 : ℚ)) 5 (by norm_num)⟩

/-- The documented example: `safepow_(-8, 1/3)` is NaN. -/
theorem safepow_neg_eight_third (pow_ : ℚ → ℚ → ℚ) :
    safepow_ pow_ (-8 : ℚ) (1 / 3) = Outcome.nan := by
  have hc : static_cast_int (1 / 3 : ℚ) = some 0 := by
    have hf : ⌊(1 / 3 : ℚ)⌋ = 0 := by
      rw [Int.floor_eq_iff]
      constructor <;> norm_num
    have h0 : (0 : ℚ) ≤ 1 / 3 := by norm_num
    simp only [static_cast_int, if_pos h0, hf]
    decide
  have he : (1 / 3 : ℚ) ≠ 0 := by norm_num
  rw [safepow_neg_base pow_ (-8) (1 / 3) (by norm_num) he, hc]
  norm_num

/-- Where `static_cast<int>` is defined and the conversion returns its value, the compiled
kernel and `safepow_` agree. -/
theorem safepow_conv_eq_safepow (conv : K → Int) (pow_ : K → K → K) (base exponent : K)
    (h : static_cast_int exponent = some (conv exponent)) :
    safepow_conv conv pow_ base exponent = safepow_ pow_ base exponent := by
  simp only [safepow_conv, safepow_, h]

theorem cvtt_x86_intCast_out_of_range (n : ℤ) (h : n < INT_MIN ∨ INT_MAX < n) :
    cvtt_x86 (n : K) = INT_MIN := by
  have : ¬ (INT_MIN ≤ n ∧ n ≤ INT_MAX) := by
    rintro ⟨h1, h2⟩
    rcases h with h | h
    · exact absurd h1 (not_le.mpr h)
    · exact absurd h2 (not_le.mpr h)
  simp [cvtt_x86, this]

/-- C6 (evaluation at the failing input): base `-2` with the exponent `4294967296 = 2^32`, an
exact integer.  The truncated exponent does not fit `int`: `static_cast<int>` is undefined, the
x86-64 conversion returns `INT_MIN`, the test `exponent != exp_as_int` succeeds and the compiled
kernel takes the NaN branch, which the claim excludes for an exact-integer exponent. -/
theorem safepow_exact_integer_takes_nan_branch :
    cvtt_x86 (4294967296 : ℝ) = INT_MIN ∧
    safepow_conv cvtt_x86 Real.rpow (-2 : ℝ) 4294967296 = Outcome.nan ∧
    safepow_ Real.rpow (-2 : ℝ) 4294967296 = Outcome.undefined := by
  have hc : cvtt_x86 (4294967296 : ℝ) = INT_MIN := by
    have := cvtt_x86_intCast_out_of_range (K := ℝ) 4294967296 (Or.inr (by decide))
    exact_mod_cast this
  refine ⟨hc, ?_, ?_⟩
  · have h0 : (4294967296 : ℝ) ≠ 0 := by norm_num
    have h1 : (-2 : ℝ) ≠ 0 := by norm_num
    have h2 : ¬ ((-2 : ℝ) > 0) := by norm_num
    have h3 : (4294967296 : ℝ) ≠ ((INT_MIN : ℤ) : ℝ) := by
      simp only [INT_MIN]
      norm_num
    simp only [safepow_conv, if_neg h0, if_neg h1, if_neg h2, hc, if_pos h3]
  · have := safepow_neg_base_int_out_of_range Real.rpow (-2 : ℝ) 4294967296 (by norm_num)
      (Or.inr (by decide))
    exact_mod_cast this

/-- C7 (evaluation at failing inputs): `safepow_` is not total.  For base `-2` and the exponents
`10000000000` and `-10000000000`, whose magnitude lies outside the range of `int`, the conversion
`static_cast<int>(exponent)` is undefined and `safepow_` returns neither a number nor NaN. -/
theorem safepow_undefined_out_of_int_range :
    static_cast_int (10000000000 : ℝ) = none ∧
    static_cast_int (-10000000000 : ℝ) = none ∧
    safepow_ Real.rpow (-2 : ℝ) 10000000000 = Outcome.undefined ∧
    safepow_ Real.rpow (-2 : ℝ) (-10000000000) = Outcome.undefined := by
  refine ⟨?_, ?_, ?_, ?_⟩
  · have := static_cast_int_intCast_out_of_range (K := ℝ) 10000000000 (Or.inr (by decide))
    exact_mod_cast this
  · have := static_cast_int_intCast_out_of_range (K := ℝ) (-10000000000) (Or.inl (by decide))
    exact_mod_cast this
  · have := safepow_neg_base_int_out_of_range Real.rpow (-2 : ℝ) 10000000000 (by norm_num)
      (Or.inr (by decide))
    exact_mod_cast this
  · have := safepow_neg_base_int_out_of_range Real.rpow (-2 : ℝ) (-10000000000) (by norm_num)
      (Or.inl (by decide))
    exact_mod_cast this

end SafepowClaims

/-! ## Rounding to nearest -/

section RoundingArith

variable {K : Type} [LinearOrderedField K]

theorem two_pow_mul_ulp (p : ℕ) (hp : 1 ≤ p) (n : ℤ) :
    (((2 : ℤ) ^ (p - 1) : ℤ) : K) * (2 : K) ^ (n + 1 - (p : ℤ)) = (2 : K) ^ n := by
  have h2 : (2 : K) ≠ 0 := two_ne_zero
  push_cast
  rw [← zpow_natCast, ← zpow_add₀ h2]
  congr 1
  rw [Nat.cast_sub hp]
  push_cast
  ring

theorem two_pow_succ_mul_ulp (p : ℕ) (n : ℤ) :
    (((2 : ℤ) ^ p : ℤ) : K) * (2 : K) ^ (n + 1 - (p : ℤ)) = (2 : K) ^ (n + 1) := by
  have h2 : (2 : K) ≠ 0 := two_ne_zero
  push_cast
  rw [← zpow_natCast, ← zpow_add₀ h2]
  congr 1
  ring

end RoundingArith

section RoundingLemmas

variable {K : Type} [LinearOrderedField K] [FloorRing K]

theorem roundHalfEven_eq_of_abs_lt (t : K) (m : ℤ) (h : |t - m| < 1 / 2) :
    roundHalfEven t = m := by
  have h' := abs_lt.mp h
  rcases le_or_lt (m : K) t with hle | hlt
  · have hf : ⌊t⌋ = m := by
      rw [Int.floor_eq_iff]
      constructor
      · exact hle
      · linarith
    have hr : t - ((m : ℤ) : K) < 1 / 2 := by linarith
    simp only [roundHalfEven]
    rw [hf, if_pos hr]
  · have hf : ⌊t⌋ = m - 1 := by
      rw [Int.floor_eq_iff]
      push_cast
      constructor
      · linarith
      · linarith
    have hr : ¬ (t - ((m - 1 : ℤ) : K) < 1 / 2) := by
      push_cast; linarith
    have hr2 : 1 / 2 < t - ((m - 1 : ℤ) : K) := by
      push_cast; linarith
    simp only [roundHalfEven]
    rw [hf, if_neg hr, if_pos hr2]
    ring

theorem floor_le_roundHalfEven (t : K) : ⌊t⌋ ≤ roundHalfEven t := by
  simp only [roundHalfEven]
  split_ifs <;> omega

theorem roundHalfEven_le_floor_add_one (t : K) : roundHalfEven t ≤ ⌊t⌋ + 1 := by
  simp only [roundHalfEven]
  split_ifs <;> omega

theorem le_roundHalfEven (t : K) (N : ℤ) (h : (N : K) ≤ t) : N ≤ roundHalfEven t :=
  le_trans (Int.le_floor.mpr h) (floor_le_roundHalfEven t)

theorem roundHalfEven_le (t : K) (N : ℤ) (h : t ≤ (N : K)) : roundHalfEven t ≤ N := by
  rcases eq_or_lt_of_le h with heq | hlt
  · have : roundHalfEven t = N := by
      apply roundHalfEven_eq_of_abs_lt
      rw [heq, sub_self, abs_zero]
      norm_num
    exact this.le
  · have hf : ⌊t⌋ < N := Int.floor_lt.mpr hlt
    have := roundHalfEven_le_floor_add_one t
    omega

theorem log_two_eq (x : K) (n : ℤ) (h1 : (2 : K) ^ n ≤ x) (h2 : x < (2 : K) ^ (n + 1)) :
    Int.log 2 x = n := by
  have hpos : 0 < x := lt_of_lt_of_le (zpow_pos (by norm_num) n) h1
  have a : n ≤ Int.log 2 x := by
    have := (Int.zpow_le_iff_le_log (R := K) (b := 2) (by norm_num) hpos (x := n)).mp
    apply this
    exact_mod_cast h1
  have b : Int.log 2 x < n + 1 := by
    have := (Int.lt_zpow_iff_log_lt (R := K) (b := 2) (by norm_num) hpos (x := n + 1)).mp
    apply this
    exact_mod_cast h2
  omega

/-- The value of `roundNE` on the binade `[2^n, 2^(n+1))`. -/
theorem roundNE_of_binade (p : ℕ) (x : K) (n : ℤ) (h1 : (2 : K) ^ n ≤ |x|)
    (h2 : |x| < (2 : K) ^ (n + 1)) :
    roundNE p x = (roundHalfEven (x / (2 : K) ^ (n + 1 - (p : ℤ))) : K) *
      (2 : K) ^ (n + 1 - (p : ℤ)) := by
  have hpos : 0 < |x| := lt_of_lt_of_le (zpow_pos (by norm_num) n) h1
  have hx : x ≠ 0 := abs_pos.mp hpos
  simp only [roundNE, if_neg hx, log_two_eq |x| n h1 h2]

/-- Evaluation of `roundNE`: on the binade `[2^n, 2^(n+1))` the result is `m * 2^(n+1-p)` for
the integer `m` nearest to `x / 2^(n+1-p)`. -/
theorem roundNE_eq (p : ℕ) (x : K) (n m : ℤ) (h1 : (2 : K) ^ n ≤ |x|)
    (h2 : |x| < (2 : K) ^ (n + 1))
    (h3 : |x / (2 : K) ^ (n + 1 - (p : ℤ)) - m| < 1 / 2) :
    roundNE p x = (m : K) * (2 : K) ^ (n + 1 - (p : ℤ)) := by
  rw [roundNE_of_binade p x n h1 h2, roundHalfEven_eq_of_abs_lt _ m h3]

/-- Evaluation of `roundNE` at a positive argument. -/
theorem roundNE_eq_of_pos (p : ℕ) (x : K) (n m : ℤ) (h1 : (2 : K) ^ n ≤ x)
    (h2 : x < (2 : K) ^ (n + 1))
    (h3 : (m : K) - 1 / 2 < x / (2 : K) ^ (n + 1 - (p : ℤ)))
    (h4 : x / (2 : K) ^ (n + 1 - (p : ℤ)) < (m : K) + 1 / 2) :
    roundNE p x = (m : K) * (2 : K) ^ (n + 1 - (p : ℤ)) := by
  have hpos : 0 < x := lt_of_lt_of_le (zpow_pos (by norm_num) n) h1
  apply roundNE_eq p x n m
  · rw [abs_of_pos hpos]; exact h1
  · rw [abs_of_pos hpos]; exact h2
  · rw [abs_lt]
    constructor <;> linarith

theorem roundNE_le (p : ℕ) (x : K) (n N : ℤ) (h1 : (2 : K) ^ n ≤ |x|)
    (h2 : |x| < (2 : K) ^ (n + 1)) (h3 : x ≤ (N : K) * (2 : K) ^ (n + 1 - (p : ℤ))) :
    roundNE p x ≤ (N : K) * (2 : K) ^ (n + 1 - (p : ℤ)) := by
  have hu : (0 : K) < (2 : K) ^ (n + 1 - (p : ℤ)) := zpow_pos (by norm_num) _
  rw [roundNE_of_binade p x n h1 h2]
  apply mul_le_mul_of_nonneg_right _ hu.le
  have : roundHalfEven (x / (2 : K) ^ (n + 1 - (p : ℤ))) ≤ N := by
    apply roundHalfEven_le
    rw [div_le_iff₀ hu]
    exact h3
  exact_mod_cast this

theorem le_roundNE (p : ℕ) (x : K) (n N : ℤ) (h1 : (2 : K) ^ n ≤ |x|)
    (h2 : |x| < (2 : K) ^ (n + 1)) (h3 : (N : K) * (2 : K) ^ (n + 1 - (p : ℤ)) ≤ x) :
    (N : K) * (2 : K) ^ (n + 1 - (p : ℤ)) ≤ roundNE p x := by
  have hu : (0 : K) < (2 : K) ^ (n + 1 - (p : ℤ)) := zpow_pos (by norm_num) _
  rw [roundNE_of_binade p x n h1 h2]
  apply mul_le_mul_of_nonneg_right _ hu.le
  have : N ≤ roundHalfEven (x / (2 : K) ^ (n + 1 - (p : ℤ))) := by
    apply le_roundHalfEven
    rw [le_div_iff₀ hu]
    exact h3
  exact_mod_cast this

/-- A positive number is rounded into the closure of its binade. -/
theorem roundNE_binade_bounds (p : ℕ) (hp : 1 ≤ p) (x : K) (n : ℤ) (h1 : (2 : K) ^ n ≤ x)
    (h2 : x < (2 : K) ^ (n + 1)) :
    (2 : K) ^ n ≤ roundNE p x ∧ roundNE p x ≤ (2 : K) ^ (n + 1) := by
  have hpos : 0 < x := lt_of_lt_of_le (zpow_pos (by norm_num) n) h1
  have a1 : (2 : K) ^ n ≤ |x| := by rw [abs_of_pos hpos]; exact h1
  have a2 : |x| < (2 : K) ^ (n + 1) := by rw [abs_of_pos hpos]; exact h2
  constructor
  · have := le_roundNE p x n ((2 : ℤ) ^ (p - 1)) a1 a2 (by rw [two_pow_mul_ulp p hp n]; exact h1)
    rwa [two_pow_mul_ulp p hp n] at this
  · have := roundNE_le p x n ((2 : ℤ) ^ p) a1 a2 (by rw [two_pow_succ_mul_ulp p n]; exact h2.le)
    rwa [two_pow_succ_mul_ulp p n] at this

theorem roundNE_pos (p : ℕ) (hp : 1 ≤ p) (x : K) (hx : 0 < x) : 0 < roundNE p x := by
  have h1 : (2 : K) ^ (Int.log 2 x) ≤ x := by
    have := Int.zpow_log_le_self (R := K) (b := 2) (by norm_num) hx
    exact_mod_cast this
  have h2 : x < (2 : K) ^ (Int.log 2 x + 1) := by
    have := Int.lt_zpow_succ_log_self (R := K) (b := 2) (by norm_num) x
    exact_mod_cast this
  exact lt_of_lt_of_le (zpow_pos (by norm_num) _) (roundNE_binade_bounds p hp x _ h1 h2).1

/-- Powers of two are representable. -/
theorem roundNE_two_zpow (p : ℕ) (hp : 1 ≤ p) (k : ℤ) : roundNE p ((2 : K) ^ k) = (2 : K) ^ k := by
  have hpos : (0 : K) < (2 : K) ^ k := zpow_pos (by norm_num) k
  have hlt : (2 : K) ^ k < (2 : K) ^ (k + 1) := by
    rw [zpow_add_one₀ (two_ne_zero)]
    linarith
  have hm : (2 : K) ^ k / (2 : K) ^ (k + 1 - (p : ℤ)) = (((2 : ℤ) ^ (p - 1) : ℤ) : K) := by
    have hu : (2 : K) ^ (k + 1 - (p : ℤ)) ≠ 0 := (zpow_pos (by norm_num) _).ne.symm
    rw [div_eq_iff hu, two_pow_mul_ulp p hp k]
  have := roundNE_eq p ((2 : K) ^ k) k ((2 : ℤ) ^ (p - 1))
    (by rw [abs_of_pos hpos]) (by rw [abs_of_pos hpos]; exact hlt)
    (by rw [hm, sub_self, abs_zero]; norm_num)
  rw [this, two_pow_mul_ulp p hp k]

theorem roundNE_one (p : ℕ) (hp : 1 ≤ p) : roundNE p (1 : K) = 1 := by
  have := roundNE_two_zpow (K := K) p hp 0
  simpa using this

theorem one_le_roundNE (p : ℕ) (hp : 1 ≤ p) (x : K) (hx : 1 ≤ x) : 1 ≤ roundNE p x := by
  have hpos : 0 < x := lt_of_lt_of_le one_pos hx
  have h1 : (2 : K) ^ (Int.log 2 x) ≤ x := by
    have := Int.zpow_log_le_self (R := K) (b := 2) (by norm_num) hpos
    exact_mod_cast this
  have h2 : x < (2 : K) ^ (Int.log 2 x + 1) := by
    have := Int.lt_zpow_succ_log_self (R := K) (b := 2) (by norm_num) x
    exact_mod_cast this
  have hn : 0 ≤ Int.log 2 x := by
    have := (Int.zpow_le_iff_le_log (R := K) (b := 2) (by norm_num) hpos (x := 0)).mp
    apply this
    simpa using hx
  have hb := (roundNE_binade_bounds p hp x _ h1 h2).1
  have : (1 : K) ≤ (2 : K) ^ (Int.log 2 x) := one_le_zpow₀ (by norm_num) hn
  exact le_trans this hb

theorem roundNE_le_one (p : ℕ) (hp : 1 ≤ p) (x : K) (h0 : 0 < x) (hx : x ≤ 1) :
    roundNE p x ≤ 1 := by
  rcases eq_or_lt_of_le hx with heq | hlt
  · rw [heq, roundNE_one p hp]
  · have h1 : (2 : K) ^ (Int.log 2 x) ≤ x := by
      have := Int.zpow_log_le_self (R := K) (b := 2) (by norm_num) h0
      exact_mod_cast this
    have h2 : x < (2 : K) ^ (Int.log 2 x + 1) := by
      have := Int.lt_zpow_succ_log_self (R := K) (b := 2) (by norm_num) x
      exact_mod_cast this
    have hn : Int.log 2 x < 0 := by
      have := (Int.lt_zpow_iff_log_lt (R := K) (b := 2) (by norm_num) h0 (x := 0)).mp
      apply this
      simpa using hlt
    have hb := (roundNE_binade_bounds p hp x _ h1 h2).2
    have : (2 : K) ^ (Int.log 2 x + 1) ≤ 1 := zpow_le_one_of_nonpos₀ (by norm_num) (by omega)
    exact le_trans hb this

theorem abs_roundHalfEven_sub_le (t : K) : |(roundHalfEven t : K) - t| ≤ 1 / 2 := by
  have h1 : ((⌊t⌋ : ℤ) : K) ≤ t := Int.floor_le t
  have h2 : t < ((⌊t⌋ : ℤ) : K) + 1 := Int.lt_floor_add_one t
  simp only [roundHalfEven]
  rw [abs_le]
  split_ifs with ha hb hc
  · constructor <;> linarith
  · push_cast
    constructor <;> linarith
  · have : t - ((⌊t⌋ : ℤ) : K) = 1 / 2 := le_antisymm (not_lt.mp hb) (not_lt.mp ha)
    constructor <;> linarith
  · have : t - ((⌊t⌋ : ℤ) : K) = 1 / 2 := le_antisymm (not_lt.mp hb) (not_lt.mp ha)
    push_cast
    constructor <;> linarith

/-- The relative error of rounding to nearest with `p` bits is at most `2^-p`. -/
theorem abs_roundNE_sub_le (p : ℕ) (x : K) :
    |roundNE p x - x| ≤ (2 : K) ^ (-(p : ℤ)) * |x| := by
  by_cases hx : x = 0
  · simp [roundNE, hx]
  have hpos : 0 < |x| := abs_pos.mpr hx
  have h2 : (2 : K) ≠ 0 := two_ne_zero
  have hlog : (2 : K) ^ (Int.log 2 |x|) ≤ |x| := by
    have := Int.zpow_log_le_self (R := K) (b := 2) (by norm_num) hpos
    exact_mod_cast this
  have hu : (0 : K) < (2 : K) ^ (Int.log 2 |x| + 1 - (p : ℤ)) := zpow_pos (by norm_num) _
  simp only [roundNE, if_neg hx]
  have e1 : (roundHalfEven (x / (2 : K) ^ (Int.log 2 |x| + 1 - (p : ℤ))) : K) *
      (2 : K) ^ (Int.log 2 |x| + 1 - (p : ℤ)) - x =
      ((roundHalfEven (x / (2 : K) ^ (Int.log 2 |x| + 1 - (p : ℤ))) : K) -
        x / (2 : K) ^ (Int.log 2 |x| + 1 - (p : ℤ))) *
        (2 : K) ^ (Int.log 2 |x| + 1 - (p : ℤ)) := by
    field_simp
  rw [e1, abs_mul, abs_of_pos hu]
  have hr := abs_roundHalfEven_sub_le (x / (2 : K) ^ (Int.log 2 |x| + 1 - (p : ℤ)))
  have e2 : (2 : K) ^ (Int.log 2 |x| + 1 - (p : ℤ)) =
      2 * ((2 : K) ^ (-(p : ℤ)) * (2 : K) ^ (Int.log 2 |x|)) := by
    rw [← zpow_add₀ h2, ← zpow_one_add₀ h2]
    congr 1
    ring
  have hnn : (0 : K) ≤ (2 : K) ^ (-(p : ℤ)) := (zpow_pos (by norm_num) _).le
  calc |(roundHalfEven (x / (2 : K) ^ (Int.log 2 |x| + 1 - (p : ℤ))) : K) -
          x / (2 : K) ^ (Int.log 2 |x| + 1 - (p : ℤ))| *
        (2 : K) ^ (Int.log 2 |x| + 1 - (p : ℤ))
      ≤ 1 / 2 * (2 : K) ^ (Int.log 2 |x| + 1 - (p : ℤ)) :=
        mul_le_mul_of_nonneg_right hr hu.le
    _ = (2 : K) ^ (-(p : ℤ)) * (2 : K) ^ (Int.log 2 |x|) := by rw [e2]; ring
    _ ≤ (2 : K) ^ (-(p : ℤ)) * |x| := mul_le_mul_of_nonneg_left hlog hnn

end RoundingLemmas

/-! ## The exact reading is the rounded reading without rounding -/

section ExactReading

variable {K : Type} [LinearOrderedField K]

theorem rounded_id_eq_exact (exp_ : K → K) (a b c : K) :
    Rounded.Sigmoid id exp_ a = Sigmoid exp_ a ∧
    Rounded.StableSigmoid id exp_ a = StableSigmoid exp_ a ∧
    Rounded.OpExponentialLinearUnit id exp_ a = OpExponentialLinearUnit exp_ a ∧
    Rounded.OpElementwiseProductWithExponentialLinearUnitDerivativeFromOutput id a b =
      OpElementwiseProductWithExponentialLinearUnitDerivativeFromOutput a b ∧
    Rounded.OpElementwiseProductWithLogDerivativeFromOutput id exp_ a b =
      OpElementwiseProductWithLogDerivativeFromOutput exp_ a b ∧
    Rounded.OpElementwiseProductWithLogSumDerivative id exp_ a b c =
      OpElementwiseProductWithLogSumDerivative exp_ a b c :=
  ⟨rfl, rfl, rfl, rfl, rfl, rfl⟩

end ExactReading

/-! ## Accumulated rounding error of the reciprocal and of the square root -/

section RoundingError

variable {K : Type} [LinearOrderedField K] [FloorRing K]

/-- The rounded square of the rounded square root of a positive `a` is within
`(3u + 3u^2 + u^3) * a` of `a`, `u = 2^-p`. -/
theorem sqrt_squared_error (p : ℕ) (a : ℝ) (ha : 0 < a) :
    |roundNE p (OpSqrt (correctlyRounded (roundNE p) Real.sqrt) a *
        OpSqrt (correctlyRounded (roundNE p) Real.sqrt) a) - a| ≤
      (3 * (2 : ℝ) ^ (-(p : ℤ)) + 3 * ((2 : ℝ) ^ (-(p : ℤ))) ^ 2 +
        ((2 : ℝ) ^ (-(p : ℤ))) ^ 3) * a := by
  have hu : (0 : ℝ) ≤ (2 : ℝ) ^ (-(p : ℤ)) := (zpow_pos (by norm_num) _).le
  obtain ⟨u, hud⟩ : ∃ u : ℝ, u = (2 : ℝ) ^ (-(p : ℤ)) := ⟨_, rfl⟩
  rw [← hud] at hu ⊢
  have hr0 : 0 < Real.sqrt a := Real.sqrt_pos.mpr ha
  have hrr : Real.sqrt a * Real.sqrt a = a := Real.mul_self_sqrt ha.le
  obtain ⟨r, hrd⟩ : ∃ r : ℝ, r = Real.sqrt a := ⟨_, rfl⟩
  rw [← hrd] at hr0 hrr
  have hs : OpSqrt (correctlyRounded (roundNE p) Real.sqrt) a = roundNE p r := by
    simp only [OpSqrt, Sqrt, gt_iff_lt, if_pos ha, correctlyRounded, hrd]
  rw [hs]
  obtain ⟨s, hsd⟩ : ∃ s : ℝ, s = roundNE p r := ⟨_, rfl⟩
  have h1 : |s - r| ≤ u * r := by
    have := abs_roundNE_sub_le p r
    rwa [abs_of_pos hr0, ← hud, ← hsd] at this
  rw [← hsd]
  have h1' := abs_le.mp h1
  have hs1 : |s + r| ≤ (2 + u) * r := by
    rw [abs_le]
    constructor <;> nlinarith [h1'.1, h1'.2]
  have h2 : |s * s - a| ≤ (2 * u + u ^ 2) * a := by
    have e : s * s - a = (s - r) * (s + r) := by rw [← hrr]; ring
    rw [e, abs_mul]
    calc |s - r| * |s + r| ≤ (u * r) * ((2 + u) * r) :=
          mul_le_mul h1 hs1 (abs_nonneg _) (mul_nonneg hu hr0.le)
      _ = (2 * u + u ^ 2) * a := by rw [← hrr]; ring
  have h3 : |s * s| ≤ (1 + u) ^ 2 * a := by
    have := abs_sub_abs_le_abs_sub (s * s) a
    rw [abs_of_pos ha] at this
    nlinarith [h2, this]
  have h4 : |roundNE p (s * s) - s * s| ≤ u * ((1 + u) ^ 2 * a) := by
    have := abs_roundNE_sub_le p (s * s)
    rw [← hud] at this
    exact le_trans this (mul_le_mul_of_nonneg_left h3 hu)
  have e2 : roundNE p (s * s) - a = (roundNE p (s * s) - s * s) + (s * s - a) := by ring
  rw [e2]
  calc |roundNE p (s * s) - s * s + (s * s - a)|
      ≤ |roundNE p (s * s) - s * s| + |s * s - a| := abs_add _ _
    _ ≤ u * ((1 + u) ^ 2 * a) + (2 * u + u ^ 2) * a := add_le_add h4 h2
    _ = (3 * u + 3 * u ^ 2 + u ^ 3) * a := by ring

end RoundingError

/-! ## Values of the exponential used in the floating-point evaluations -/

section ExpBounds

theorem exp_nat_bounds (k : ℕ) (hk : k ≠ 0) :
    (27182818283 / 10000000000 : ℝ) ^ k < Real.exp k ∧
    Real.exp k < (27182818286 / 10000000000 : ℝ) ^ k := by
  have e : Real.exp (k : ℝ) = Real.exp 1 ^ k := by
    rw [← Real.exp_nat_mul, mul_one]
  have hlo : (27182818283 / 10000000000 : ℝ) < Real.exp 1 := by
    have := Real.exp_one_gt_d9
    norm_num at this ⊢
    exact this
  have hhi : Real.exp 1 < (27182818286 / 10000000000 : ℝ) := by
    have := Real.exp_one_lt_d9
    norm_num at this ⊢
    exact this
  rw [e]
  exact ⟨pow_lt_pow_left₀ hlo (by norm_num) hk, pow_lt_pow_left₀ hhi (Real.exp_pos 1).le hk⟩

theorem exp_neg_nat_bounds (k : ℕ) (hk : k ≠ 0) :
    1 / (27182818286 / 10000000000 : ℝ) ^ k < Real.exp (-(k : ℝ)) ∧
    Real.exp (-(k : ℝ)) < 1 / (27182818283 / 10000000000 : ℝ) ^ k := by
  have h := exp_nat_bounds k hk
  have hpos : (0 : ℝ) < (27182818283 / 10000000000 : ℝ) ^ k := by positivity
  rw [Real.exp_neg, ← one_div]
  constructor
  · exact one_div_lt_one_div_of_lt (Real.exp_pos _) h.2
  · exact one_div_lt_one_div_of_lt hpos h.1

/-- In binary64 `exp(-40)` lies in the binade `[2^-58, 2^-57)`. -/
theorem exp_neg_forty_binade :
    (2 : ℝ) ^ (-58 : ℤ) ≤ Real.exp (-40) ∧ Real.exp (-40) < (2 : ℝ) ^ (-58 + 1 : ℤ) := by
  have h := exp_neg_nat_bounds 40 (by norm_num)
  have e : ((40 : ℕ) : ℝ) = 40 := by norm_num
  rw [e] at h
  constructor
  · refine le_trans ?_ h.1.le
    norm_num
  · refine lt_trans h.2 ?_
    norm_num

/-- The binary64 value of `exp(-40)` is positive and at most `2^-57`. -/
theorem exp_neg_forty_rounded :
    0 < correctlyRounded (roundNE 53) Real.exp (-40) ∧
    correctlyRounded (roundNE 53) Real.exp (-40) ≤ 1 / 2 ^ 57 := by
  have hb := roundNE_binade_bounds 53 (by norm_num) (Real.exp (-40)) (-58)
    exp_neg_forty_binade.1 exp_neg_forty_binade.2
  have h1 := hb.1
  have h2 := hb.2
  norm_num at h1 h2
  simp only [correctlyRounded]
  constructor
  · linarith
  · norm_num
    linarith

/-- In binary64 `1 + q` rounds to `1` for `0 <= q <= 2^-55`. -/
theorem roundNE_one_add_small (q : ℝ) (h0 : 0 ≤ q) (h1 : q ≤ 1 / 2 ^ 55) :
    roundNE 53 (1 + q) = 1 := by
  have h := roundNE_eq_of_pos 53 (1 + q) 0 4503599627370496
    (by norm_num; linarith) (by norm_num at h1 ⊢; linarith)
    (by norm_num; linarith) (by norm_num at h1 ⊢; linarith)
  rw [h]
  norm_num

end ExpBounds

/-! ## Sigmoid -/

section SigmoidLemmas

theorem Sigmoid_exp_eq (z : ℝ) : Sigmoid Real.exp z = 1 / (1 + Real.exp (-z)) := by
  simp only [Sigmoid]
  rw [add_comm]

theorem StableSigmoid_exp_of_pos (z : ℝ) (hz : 0 < z) :
    StableSigmoid Real.exp z = 1 / (1 + Real.exp (-z)) := by
  simp only [StableSigmoid, fabs_, abs_of_pos hz, gt_iff_lt, if_pos hz]

theorem StableSigmoid_exp_of_nonpos (z : ℝ) (hz : z ≤ 0) :
    StableSigmoid Real.exp z = Real.exp z / (1 + Real.exp z) := by
  simp only [StableSigmoid, fabs_, abs_of_nonpos hz, gt_iff_lt, if_neg (not_lt.mpr hz), neg_neg]

/-- In exact arithmetic the stabilized formulation computes the legacy function. -/
theorem StableSigmoid_exp_eq_Sigmoid (z : ℝ) :
    StableSigmoid Real.exp z = Sigmoid Real.exp z := by
  rw [Sigmoid_exp_eq]
  rcases lt_or_le 0 z with hz | hz
  · exact StableSigmoid_exp_of_pos z hz
  · rw [StableSigmoid_exp_of_nonpos z hz, Real.exp_neg]
    have h : Real.exp z ≠ 0 := (Real.exp_pos z).ne.symm
    have h2 : 1 + Real.exp z ≠ 0 := (add_pos one_pos (Real.exp_pos z)).ne.symm
    field_simp
    ring

end SigmoidLemmas

section SigmoidRounded

variable {K : Type} [LinearOrderedField K]

/-- For a positive argument the two kernels evaluate the same rounded expression. -/
theorem rounded_StableSigmoid_eq_of_pos (fl exp_ : K → K) (w : K) (hw : 0 < w) :
    Rounded.StableSigmoid fl exp_ w = Rounded.Sigmoid fl exp_ w := by
  simp only [Rounded.StableSigmoid, Rounded.Sigmoid, fabs_, abs_of_pos hw, gt_iff_lt, if_pos hw]
  rw [add_comm]

theorem Sigmoid_exp_range (z : ℝ) : 0 < Sigmoid Real.exp z ∧ Sigmoid Real.exp z < 1 := by
  have he : 0 < Real.exp (-z) := Real.exp_pos _
  have h0 : (0 : ℝ) < 1 + Real.exp (-z) := by linarith
  rw [Sigmoid_exp_eq]
  refine ⟨div_pos one_pos h0, ?_⟩
  rw [div_lt_one h0]
  linarith

/-- With round-to-nearest arithmetic of any precision and a non-negative `exp_`, the rounded
`Sigmoid` stays within `[0, 1]`. -/
theorem rounded_Sigmoid_range (p : ℕ) (hp : 1 ≤ p) (exp_ : ℝ → ℝ) (hexp : ∀ t, 0 ≤ exp_ t)
    (z : ℝ) :
    0 ≤ Rounded.Sigmoid (roundNE p) exp_ z ∧ Rounded.Sigmoid (roundNE p) exp_ z ≤ 1 := by
  have he : 0 ≤ exp_ (-z) := hexp _
  have hD : 1 ≤ roundNE p (exp_ (-z) + 1) := one_le_roundNE p hp _ (by linarith)
  have hDpos : 0 < roundNE p (exp_ (-z) + 1) := lt_of_lt_of_le one_pos hD
  have hq0 : 0 < 1 / roundNE p (exp_ (-z) + 1) := div_pos one_pos hDpos
  have hq1 : 1 / roundNE p (exp_ (-z) + 1) ≤ 1 := by
    rw [div_le_one hDpos]
    exact hD
  simp only [Rounded.Sigmoid]
  exact ⟨(roundNE_pos p hp _ hq0).le, roundNE_le_one p hp _ hq0 hq1⟩

end SigmoidRounded

section SigmoidClaims

variable {K : Type} [LinearOrderedField K]

/-- C8 (as stated, refuted): in binary64 arithmetic `Sigmoid(40)` is exactly `1`, not strictly
below it: `exp_(-40)` is at most `2^-57`, so `exp_(-40) + 1` rounds to `1`. -/
theorem Sigmoid_forty_is_one :
    Rounded.Sigmoid binary64 (correctlyRounded binary64 Real.exp) 40 = 1 := by
  have hq := exp_neg_forty_rounded
  simp only [Rounded.Sigmoid, binary64] at hq ⊢
  rw [add_comm, roundNE_one_add_small _ hq.1.le (le_trans hq.2 (by norm_num))]
  rw [div_one]
  exact roundNE_one 53 (by norm_num)

/-- C8 (amended): in exact real arithmetic, for every real `z`, `Sigmoid(z)` (the operator
`OpSigmoid`) equals `1 / (1 + exp(-z))` and lies strictly between 0 and 1.  In round-to-nearest
floating-point arithmetic of any precision, with a non-negative library exponential, the kernel
returns the rounded quotient `fl(1 / fl(1 + exp_(-z)))`, which lies between 0 and 1, the bounds
included. -/
theorem Sigmoid_formula_and_range (z : ℝ) (p : ℕ) (exp_ : ℝ → ℝ) (hp : 1 ≤ p)
    (hexp : ∀ t, 0 ≤ exp_ t) :
    Sigmoid Real.exp z = 1 / (1 + Real.exp (-z)) ∧
    OpSigmoid Real.exp z = 1 / (1 + Real.exp (-z)) ∧
    0 < Sigmoid Real.exp z ∧ Sigmoid Real.exp z < 1 ∧
    Rounded.Sigmoid (roundNE p) exp_ z = roundNE p (1 / roundNE p (1 + exp_ (-z))) ∧
    0 ≤ Rounded.Sigmoid (roundNE p) exp_ z ∧ Rounded.Sigmoid (roundNE p) exp_ z ≤ 1 := by
  refine ⟨Sigmoid_exp_eq z, Sigmoid_exp_eq z, (Sigmoid_exp_range z).1, (Sigmoid_exp_range z).2,
    ?_, (rounded_Sigmoid_range p hp exp_ hexp z).1, (rounded_Sigmoid_range p hp exp_ hexp z).2⟩
  simp only [Rounded.Sigmoid]
  rw [add_comm]

theorem Sigmoid_formula_and_range_witness :
    1 ≤ 53 ∧ (∀ t : ℝ, 0 ≤ Real.exp t) ∧
    0 ≤ Rounded.Sigmoid (roundNE 53) Real.exp 2 ∧
    Rounded.Sigmoid (roundNE 53) Real.exp 2 ≤ 1 :=
  ⟨by norm_num, fun t => (Real.exp_pos t).le,
    (Sigmoid_formula_and_range 2 53 Real.exp (by norm_num)
      (fun t => (Real.exp_pos t).le)).2.2.2.2.2⟩

/-- C9 (amended): in exact real arithmetic the stabilized and the legacy formulation compute the
same function: for every real `z`, `StableSigmoid(z)`, computed as
`q = exp(-|z|); numer = (z > 0 ? 1 : q); numer / (1 + q)`, equals `Sigmoid(z) = 1 / (exp(-z) + 1)`.
In floating-point arithmetic, whatever the rounding and the library exponential, the two kernels
evaluate the same rounded expression for every `w > 0` and agree there. -/
theorem StableSigmoid_eq_Sigmoid (z : ℝ) (fl exp_ : K → K) (w : K) :
    StableSigmoid Real.exp z =
      (if z > 0 then 1 else Real.exp (-|z|)) / (1 + Real.exp (-|z|)) ∧
    Sigmoid Real.exp z = 1 / (Real.exp (-z) + 1) ∧
    StableSigmoid Real.exp z = Sigmoid Real.exp z ∧
    (0 < w → Rounded.StableSigmoid fl exp_ w = Rounded.Sigmoid fl exp_ w) :=
  ⟨rfl, rfl, StableSigmoid_exp_eq_Sigmoid z, rounded_StableSigmoid_eq_of_pos fl exp_ w⟩

theorem StableSigmoid_eq_Sigmoid_witness :
    (0 : ℚ) < 3 ∧
    Rounded.StableSigmoid (fun t : ℚ => t / 2) (fun t : ℚ => t * t) 3 =
      Rounded.Sigmoid (fun t : ℚ => t / 2) (fun t : ℚ => t * t) 3 :=
  ⟨by norm_num,
    (StableSigmoid_eq_Sigmoid 0 (fun t : ℚ => t / 2) (fun t : ℚ => t * t) 3).2.2.2
      (by norm_num)⟩

end SigmoidClaims

/-! ## Derivatives that follow the forward operator -/

section DerivativeClaims

variable {K : Type} [LinearOrderedField K]

/-- C11: for every `z`, `SigmoidDerivative(z) = Sigmoid(z) * (1 - Sigmoid(z))` and
`StableSigmoidDerivative(z) = StableSigmoid(z) * (1 - StableSigmoid(z))`, each derivative using
its own forward variant; and for every upstream gradient `a`,
`OpElementwiseProductWithSigmoidDerivativeFromOutput(a, OpSigmoid(z)) = a * SigmoidDerivative(z)`.
This holds for every library exponential. -/
theorem SigmoidDerivative_from_forward (exp_ : K → K) (a z : K) :
    SigmoidDerivative exp_ z = Sigmoid exp_ z * (1 - Sigmoid exp_ z) ∧
    StableSigmoidDerivative exp_ z = StableSigmoid exp_ z * (1 - StableSigmoid exp_ z) ∧
    OpElementwiseProductWithSigmoidDerivativeFromOutput a (OpSigmoid exp_ z) =
      a * SigmoidDerivative exp_ z :=
  ⟨rfl, rfl, rfl⟩

/-- C19: `LinearRectifierDerivative(x)` is `1` for `x > 0` and `0` for `x <= 0` (so `0` at
`x = 0`), and for every upstream gradient `a` and input `x`,
`OpElementwiseProductWithLinearRectifierDerivativeFromOutput(a, OpLinearRectifier(x))` equals
`a * LinearRectifierDerivative(x)`. -/
theorem LinearRectifier_derivative_pairing (a x : K) :
    (0 < x → LinearRectifierDerivative x = 1) ∧
    (x ≤ 0 → LinearRectifierDerivative x = 0) ∧
    LinearRectifierDerivative (0 : K) = 0 ∧
    OpElementwiseProductWithLinearRectifierDerivativeFromOutput a (OpLinearRectifier x) =
      a * LinearRectifierDerivative x := by
  refine ⟨?_, ?_, ?_, ?_⟩
  · intro h
    simp [LinearRectifierDerivative, h]
  · intro h
    simp [LinearRectifierDerivative, not_lt.mpr h]
  · simp [LinearRectifierDerivative]
  · by_cases h : 0 < x
    · simp [OpElementwiseProductWithLinearRectifierDerivativeFromOutput, OpLinearRectifier,
        LinearRectifierDerivative, h]
    · simp [OpElementwiseProductWithLinearRectifierDerivativeFromOutput, OpLinearRectifier,
        LinearRectifierDerivative, h]

theorem LinearRectifier_derivative_pairing_witness :
    (0 : ℚ) < 3 ∧ LinearRectifierDerivative (3 : ℚ) = 1 :=
  ⟨by norm_num, (LinearRectifier_derivative_pairing (5 : ℚ) 3).1 (by norm_num)⟩

end DerivativeClaims

/-! ## Clipped logarithm, reciprocal, square root, clip -/

section ClampClaims

variable {K : Type} [LinearOrderedField K]

/-- C12: for every `z`: if `z < EPS_IN_LOG` then `ClippedLog(z)` (operator `OpLog`) is exactly the
constant `LOG_OF_EPS_IN_LOG`, whatever the library logarithm (it is not computed); otherwise
(`z >= EPS_IN_LOG`, the boundary `z = EPS_IN_LOG` included) it is `log(z)`.  With the positive
`EPS_IN_LOG`, every `z <= 0` yields the constant. -/
theorem ClippedLog_cases (log_ : K → K) (EPS_IN_LOG LOG_OF_EPS_IN_LOG z : K)
    (heps : 0 < EPS_IN_LOG) :
    (z < EPS_IN_LOG →
      ClippedLog log_ EPS_IN_LOG LOG_OF_EPS_IN_LOG z = LOG_OF_EPS_IN_LOG ∧
      OpLog log_ EPS_IN_LOG LOG_OF_EPS_IN_LOG z = LOG_OF_EPS_IN_LOG) ∧
    (EPS_IN_LOG ≤ z →
      ClippedLog log_ EPS_IN_LOG LOG_OF_EPS_IN_LOG z = log_ z ∧
      OpLog log_ EPS_IN_LOG LOG_OF_EPS_IN_LOG z = log_ z) ∧
    ClippedLog log_ EPS_IN_LOG LOG_OF_EPS_IN_LOG EPS_IN_LOG = log_ EPS_IN_LOG ∧
    (z ≤ 0 → ClippedLog log_ EPS_IN_LOG LOG_OF_EPS_IN_LOG z = LOG_OF_EPS_IN_LOG) := by
  refine ⟨?_, ?_, ?_, ?_⟩
  · intro h
    simp [OpLog, ClippedLog, h]
  · intro h
    simp [OpLog, ClippedLog, not_lt.mpr h]
  · simp [ClippedLog]
  · intro h
    have hlt : z < EPS_IN_LOG := lt_of_le_of_lt h heps
    simp [ClippedLog, hlt]

theorem ClippedLog_cases_witness :
    (0 : ℚ) < 1 / 1000 ∧ (-2 : ℚ) ≤ 0 ∧
    ClippedLog (fun t => t + 1) (1 / 1000 : ℚ) (-7) (-2) = -7 :=
  ⟨by norm_num, by norm_num,
    (ClippedLog_cases (fun t => t + 1) (1 / 1000 : ℚ) (-7) (-2) (by norm_num)).2.2.2
      (by norm_num)⟩

/-- C17 (amended): for every library square root and every `a`, `OpSqrt(a) = sqrt_(max(a, 0))`:
the library function receives `0` for every `a <= 0` and `a` for `a > 0`, never a negative
argument.  Hence `OpSqrt(a) = 0` for `a <= 0` when `sqrt_(0) = 0`, and `OpSqrt(a) >= 0` when
`sqrt_` is non-negative on non-negative arguments.  With the real square root, in exact
arithmetic, `OpSqrt(x)^2 = max(x, 0)`; in round-to-nearest arithmetic with `p` significant bits
and a correctly rounded square root, the computed square of `OpSqrt(x)` is within
`(3u + 3u^2 + u^3) * x` of `x` for `x > 0`, where `u = 2^-p`. -/
theorem OpSqrt_spec (sqrt_ : K → K) (a : K) (x : ℝ) (p : ℕ) :
    OpSqrt sqrt_ a = sqrt_ (max a 0) ∧
    (a ≤ 0 → OpSqrt sqrt_ a = sqrt_ 0) ∧
    (0 < a → OpSqrt sqrt_ a = sqrt_ a) ∧
    (sqrt_ 0 = 0 → a ≤ 0 → OpSqrt sqrt_ a = 0) ∧
    ((∀ t : K, 0 ≤ t → 0 ≤ sqrt_ t) → 0 ≤ OpSqrt sqrt_ a) ∧
    OpSqrt Real.sqrt x = Real.sqrt (max x 0) ∧
    0 ≤ OpSqrt Real.sqrt x ∧
    OpSqrt Real.sqrt x ^ 2 = max x 0 ∧
    (0 < x → |roundNE p (OpSqrt (correctlyRounded (roundNE p) Real.sqrt) x *
        OpSqrt (correctlyRounded (roundNE p) Real.sqrt) x) - x| ≤
      (3 * (2 : ℝ) ^ (-(p : ℤ)) + 3 * ((2 : ℝ) ^ (-(p : ℤ))) ^ 2 +
        ((2 : ℝ) ^ (-(p : ℤ))) ^ 3) * x) := by
  have hmax : ∀ (L : Type) [LinearOrderedField L] (f : L → L) (b : L),
      OpSqrt f b = f (max b 0) := by
    intro L _ f b
    by_cases h : 0 < b
    · simp [OpSqrt, Sqrt, h, max_eq_left h.le]
    · simp [OpSqrt, Sqrt, h, max_eq_right (not_lt.mp h)]
  refine ⟨hmax K sqrt_ a, ?_, ?_, ?_, ?_, hmax ℝ Real.sqrt x, ?_, ?_, sqrt_squared_error p x⟩
  · intro h
    rw [hmax, max_eq_right h]
  · intro h
    rw [hmax, max_eq_left h.le]
  · intro h0 h
    rw [hmax, max_eq_right h, h0]
  · intro h
    rw [hmax]
    exact h _ (le_max_right a 0)
  · rw [hmax]
    exact Real.sqrt_nonneg _
  · rw [hmax]
    exact Real.sq_sqrt (le_max_right x 0)

theorem OpSqrt_spec_witness :
    (-9 : ℚ) ≤ 0 ∧ OpSqrt (fun t : ℚ => t + 5) (-9) = (fun t : ℚ => t + 5) 0 :=
  ⟨by norm_num, (OpSqrt_spec (fun t : ℚ => t + 5) (-9) 0 24).2.1 (by norm_num)⟩

/-- C20: `OpClip` clamps `c` into `[a, b]`: for every `a <= b` and every `c`,
`a <= OpClip(a, b, c) <= b`, with `OpClip(a, b, c) = a` when `c < a`, `= b` when `c > b` and
`= c` when `a <= c <= b`, that is `max(a, min(b, c))`; clipping is idempotent. -/
theorem OpClip_clamps (a b c : K) (hab : a ≤ b) :
    a ≤ OpClip a b c ∧ OpClip a b c ≤ b ∧
    (c < a → OpClip a b c = a) ∧
    (b < c → OpClip a b c = b) ∧
    (a ≤ c → c ≤ b → OpClip a b c = c) ∧
    OpClip a b c = max a (min b c) ∧
    OpClip a b (OpClip a b c) = OpClip a b c := by
  have hlo : c < a → OpClip a b c = a := by
    intro h
    simp [OpClip, h]
  have hhi : b < c → OpClip a b c = b := by
    intro h
    have h1 : ¬ (c < a) := not_lt.mpr (le_trans hab h.le)
    simp [OpClip, h, h1]
  have hmid : ∀ d : K, a ≤ d → d ≤ b → OpClip a b d = d := by
    intro d h1 h2
    simp [OpClip, not_lt.mpr h1, not_lt.mpr h2]
  rcases lt_or_le c a with h | h
  · rw [hlo h]
    refine ⟨le_refl a, hab, fun _ => rfl, fun h2 => ?_, fun h2 => ?_, ?_, hmid a (le_refl a) hab⟩
    · exact absurd (lt_of_le_of_lt hab h2) (not_lt.mpr h.le)
    · exact absurd h (not_lt.mpr h2)
    · rw [min_eq_right (le_trans h.le hab), max_eq_left h.le]
  · rcases lt_or_le b c with h2 | h2
    · rw [hhi h2]
      refine ⟨hab, le_refl b, fun h3 => ?_, fun _ => rfl, fun _ h3 => ?_, ?_, hmid b hab (le_refl b)⟩
      · exact absurd h3 (not_lt.mpr h)
      · exact absurd h2 (not_lt.mpr h3)
      · rw [min_eq_left h2.le, max_eq_right hab]
    · rw [hmid c h h2]
      refine ⟨h, h2, fun h3 => ?_, fun h3 => ?_, fun _ _ => rfl, ?_, hmid c h h2⟩
      · exact absurd h3 (not_lt.mpr h)
      · exact absurd h3 (not_lt.mpr h2)
      · rw [min_eq_right h2, max_eq_right h]

theorem OpClip_clamps_witness :
    (1 : ℚ) ≤ 4 ∧ (1 : ℚ) ≤ OpClip 1 4 9 ∧ OpClip (1 : ℚ) 4 9 ≤ 4 :=
  ⟨by norm_num, (OpClip_clamps (1 : ℚ) 4 9 (by norm_num)).1,
    (OpClip_clamps (1 : ℚ) 4 9 (by norm_num)).2.1⟩

end ClampClaims

/-! ## Log-sum-exp -/

section LogAddLemmas

variable {K : Type} [LinearOrderedField K]

/-- After the swap block the first component is the larger and the second the smaller
argument. -/
theorem LogAddSwap_eq (x y : K) : LogAddSwap x y = (max x y, min x y) := by
  by_cases h : x < y
  · simp [LogAddSwap, h, max_eq_right h.le, min_eq_left h.le]
  · have h2 : y ≤ x := not_lt.mp h
    simp [LogAddSwap, h, max_eq_left h2, min_eq_right h2]

theorem LogAdd_eq_max_min (exp_ log1p_ : K → K) (x y : K) :
    LogAdd exp_ log1p_ x y = max x y + log1p_ (exp_ (min x y - max x y)) := by
  simp only [LogAdd, LogAddSwap_eq]

end LogAddLemmas

section LogAddClaims

variable {K : Type} [LinearOrderedField K]

/-- C14: `LogAdd` is commutative: `LogAdd(x, y) = LogAdd(y, x)` for all `x` and `y`, whatever
the library `exp` and `log1p`; in particular with the real ones. -/
theorem LogAdd_comm (exp_ log1p_ : K → K) (x y : K) (u v : ℝ) :
    LogAdd exp_ log1p_ x y = LogAdd exp_ log1p_ y x ∧
    LogAdd Real.exp (fun t => Real.log (1 + t)) u v =
      LogAdd Real.exp (fun t => Real.log (1 + t)) v u := by
  constructor
  · rw [LogAdd_eq_max_min, LogAdd_eq_max_min, max_comm, min_comm]
  · rw [LogAdd_eq_max_min, LogAdd_eq_max_min, max_comm, min_comm]

/-- C15: for every real `x`, `LogAdd(x, x) = x + log(2)`. -/
theorem LogAdd_self (x : ℝ) :
    LogAdd Real.exp (fun t => Real.log (1 + t)) x x = x + Real.log 2 := by
  rw [LogAdd_eq_max_min, max_self, min_self, sub_self, Real.exp_zero]
  norm_num

end LogAddClaims

/-! ## Absolute value on the reduced-precision type -/

section HalfLemmas

theorem ldiff_low_mask (v : ℕ) (hv : v < 65536) :
    Nat.ldiff 32767 (65535 - v) = v % 32768 := by
  have e1 : (32767 : ℕ) = 2 ^ 15 - 1 := by norm_num
  have e2 : 65535 - v = 2 ^ 16 - (v + 1) := by omega
  have e3 : (32768 : ℕ) = 2 ^ 15 := by norm_num
  have hv2 : v < 2 ^ 16 := by omega
  apply Nat.eq_of_testBit_eq
  intro k
  rw [Nat.testBit_ldiff, e1, e2, e3, Nat.testBit_two_pow_sub_one,
    Nat.testBit_two_pow_sub_succ hv2, Nat.testBit_mod_two_pow]
  by_cases h : k < 15
  · have h2 : k < 16 := by omega
    simp [h, h2]
  · simp [h]

theorem land_half_as_short (v : ℕ) (hv : v < 65536) :
    Int.land (half_as_short v) 0x7FFF = ((v % 32768 : ℕ) : ℤ) := by
  by_cases h : v < 32768
  · have e : half_as_short v = Int.ofNat v := by simp [half_as_short, h]
    rw [e]
    show ((v &&& 32767 : ℕ) : ℤ) = _
    have := Nat.and_pow_two_sub_one_eq_mod v 15
    norm_num at this
    rw [this]
  · have e : half_as_short v = Int.negSucc (65535 - v) := by
      simp only [half_as_short, if_neg h, Int.negSucc_eq]
      omega
    rw [e]
    show ((Nat.ldiff 32767 (65535 - v) : ℕ) : ℤ) = _
    rw [ldiff_low_mask v hv]

theorem fabs_half_eq_mod (v : ℕ) (hv : v < 65536) : fabs_half v = v % 32768 := by
  simp only [fabs_half, land_half_as_short v hv, int_to_short, short_as_half]
  omega

theorem fabs_half_eq_and (v : ℕ) (hv : v < 65536) : fabs_half v = v &&& 0x7FFF := by
  rw [fabs_half_eq_mod v hv]
  have := Nat.and_pow_two_sub_one_eq_mod v 15
  norm_num at this
  exact this.symm

theorem xor_sign_lt (v : ℕ) (hv : v < 65536) : v ^^^ 0x8000 < 65536 := by
  have h : v ^^^ 0x8000 < 2 ^ 16 := Nat.xor_lt_two_pow (by omega) (by norm_num)
  omega

theorem xor_sign_mod (v : ℕ) : (v ^^^ 0x8000) % 32768 = v % 32768 := by
  have e3 : (32768 : ℕ) = 2 ^ 15 := by norm_num
  apply Nat.eq_of_testBit_eq
  intro k
  rw [e3, Nat.testBit_mod_two_pow, Nat.testBit_mod_two_pow, Nat.testBit_xor]
  by_cases h : k < 15
  · have hk : (15 : ℕ) ≠ k := by omega
    have : Nat.testBit 0x8000 k = false := by
      have e4 : (0x8000 : ℕ) = 2 ^ 15 := by norm_num
      rw [e4, Nat.testBit_two_pow]
      simp [hk]
    simp [h, this]
  · simp [h]

theorem fabs_branch_eq_mod (v : ℕ) (hv : v < 65536) : fabs_branch v = v % 32768 := by
  have e3 : (32768 : ℕ) = 2 ^ 15 := by norm_num
  have hv2 : v < 2 ^ 16 := by omega
  apply Nat.eq_of_testBit_eq
  intro k
  rw [e3, Nat.testBit_mod_two_pow]
  by_cases hs : v.testBit 15
  · simp only [fabs_branch, if_pos hs, Nat.testBit_xor]
    have : Nat.testBit 0x8000 k = decide (15 = k) := by
      rw [e3, Nat.testBit_two_pow]
    rw [this]
    by_cases h : k < 15
    · have hk : (15 : ℕ) ≠ k := by omega
      simp [h, hk]
    · by_cases h15 : k = 15
      · subst h15
        simp [hs]
      · have hk : 16 ≤ k := by omega
        have hf : v.testBit k = false :=
          Nat.testBit_lt_two_pow (lt_of_lt_of_le hv2 (Nat.pow_le_pow_right (by norm_num) hk))
        have hk2 : (15 : ℕ) ≠ k := by omega
        simp [h, hf, hk2]
  · simp only [fabs_branch, if_neg hs]
    by_cases h : k < 15
    · simp [h]
    · by_cases h15 : k = 15
      · subst h15
        simp [hs]
      · have hk : 16 ≤ k := by omega
        have hf : v.testBit k = false :=
          Nat.testBit_lt_two_pow (lt_of_lt_of_le hv2 (Nat.pow_le_pow_right (by norm_num) hk))
        simp [h, hf]

end HalfLemmas

section HalfClaims

/-- C22: the reduced-precision `fabs_` is exactly a sign-bit mask: for every 16-bit pattern `v`,
`fabs_(v) = v AND 0x7FFF`, that is bit 15 is cleared and bits 0..14 are those of `v`; the result
is again a 16-bit pattern; `fabs_` is idempotent, maps `v` and `v XOR 0x8000` to the same result,
and coincides with the branch-based absolute value that flips the sign bit exactly when it is
set. -/
theorem fabs_half_sign_mask (v : ℕ) (hv : v < 65536) :
    fabs_half v = v &&& 0x7FFF ∧
    (fabs_half v).testBit 15 = false ∧
    (∀ k, k < 15 → (fabs_half v).testBit k = v.testBit k) ∧
    fabs_half v < 65536 ∧
    fabs_half (fabs_half v) = fabs_half v ∧
    fabs_half (v ^^^ 0x8000) = fabs_half v ∧
    fabs_half v = fabs_branch v := by
  have e3 : (32768 : ℕ) = 2 ^ 15 := by norm_num
  have hm : fabs_half v = v % 32768 := fabs_half_eq_mod v hv
  have hlt : v % 32768 < 32768 := Nat.mod_lt _ (by norm_num)
  refine ⟨fabs_half_eq_and v hv, ?_, ?_, ?_, ?_, ?_, ?_⟩
  · rw [hm, e3, Nat.testBit_mod_two_pow]
    simp
  · intro k hk
    rw [hm, e3, Nat.testBit_mod_two_pow]
    simp [hk]
  · rw [hm]
    omega
  · rw [hm, fabs_half_eq_mod (v % 32768) (by omega), Nat.mod_mod]
  · rw [hm, fabs_half_eq_mod (v ^^^ 0x8000) (xor_sign_lt v hv), xor_sign_mod]
  · rw [hm, fabs_branch_eq_mod v hv]

theorem fabs_half_sign_mask_witness :
    64512 < 65536 ∧ fabs_half 64512 = 64512 &&& 0x7FFF ∧ 64512 &&& 0x7FFF = 31744 :=
  ⟨by decide, (fabs_half_sign_mask 64512 (by decide)).1, by decide⟩

end HalfClaims

/-! ## Derivatives of the logarithm and of log-sum -/

section LogDerivativeClaims

variable {K : Type} [LinearOrderedField K]

end LogDerivativeClaims

/-! ## Evaluations in binary64 arithmetic -/

section Binary64Evaluations

/-- The binary64 value of the square root of 2. -/
theorem sqrt_two_binary64 :
    correctlyRounded binary64 Real.sqrt 2 = 6369051672525773 / 2 ^ 52 := by
  have hlo : (6369051672525773 - 1 / 2 : ℝ) / 2 ^ 52 < Real.sqrt 2 := by
    apply Real.lt_sqrt_of_sq_lt
    norm_num
  have hhi : Real.sqrt 2 < (6369051672525773 + 1 / 2 : ℝ) / 2 ^ 52 := by
    rw [Real.sqrt_lt' (by norm_num)]
    norm_num
  simp only [correctlyRounded, binary64]
  have h := roundNE_eq_of_pos 53 (Real.sqrt 2) 0 6369051672525773
    (by norm_num) (by norm_num at hhi ⊢; linarith)
    (by norm_num at hlo ⊢; linarith) (by norm_num at hhi ⊢; linarith)
  rw [h]
  norm_num

/-- C17 (as stated, refuted): in binary64 arithmetic `OpSqrt(2)^2` is `2 + 2^-51`, not
`max(2, 0) = 2`. -/
theorem OpSqrt_squared_binary64 :
    binary64 (OpSqrt (correctlyRounded binary64 Real.sqrt) 2 *
      OpSqrt (correctlyRounded binary64 Real.sqrt) 2) = 2 + 1 / 2 ^ 51 ∧
    binary64 (OpSqrt (correctlyRounded binary64 Real.sqrt) 2 *
      OpSqrt (correctlyRounded binary64 Real.sqrt) 2) ≠ max 2 0 := by
  have h2 : (0 : ℝ) < 2 := by norm_num
  have hs : OpSqrt (correctlyRounded binary64 Real.sqrt) (2 : ℝ) = 6369051672525773 / 2 ^ 52 := by
    simp only [OpSqrt, Sqrt, gt_iff_lt, if_pos h2]
    exact sqrt_two_binary64
  have hp : binary64 ((6369051672525773 / 2 ^ 52 : ℝ) * (6369051672525773 / 2 ^ 52)) =
      2 + 1 / 2 ^ 51 := by
    simp only [binary64]
    have h := roundNE_eq_of_pos 53 ((6369051672525773 / 2 ^ 52 : ℝ) * (6369051672525773 / 2 ^ 52))
      1 4503599627370497 (by norm_num) (by norm_num) (by norm_num) (by norm_num)
    rw [h]
    norm_num
  rw [hs, hp]
  refine ⟨rfl, ?_⟩
  rw [max_eq_left h2.le]
  norm_num

end Binary64Evaluations

/-! ## Evaluations in binary32 arithmetic -/

section Binary32Evaluations

/-- The binary32 value of `exp(7)`. -/
theorem exp_seven_binary32 :
    correctlyRounded binary32 Real.exp 7 = 8983619 / 2 ^ 13 := by
  have hb := exp_nat_bounds 7 (by norm_num)
  have e7 : ((7 : ℕ) : ℝ) = 7 := by norm_num
  rw [e7] at hb
  obtain ⟨h1, h2⟩ := hb
  norm_num at h1 h2
  simp only [correctlyRounded, binary32]
  have h := roundNE_eq_of_pos 24 (Real.exp 7) 10 8983619
    (by norm_num; linarith) (by norm_num; linarith)
    (by norm_num; linarith) (by norm_num; linarith)
  rw [h]
  norm_num

/-- The binary32 value of `exp(-7)`. -/
theorem exp_neg_seven_binary32 :
    correctlyRounded binary32 Real.exp (-7) = 15666013 / 2 ^ 34 := by
  have hb := exp_neg_nat_bounds 7 (by norm_num)
  have e7 : ((7 : ℕ) : ℝ) = 7 := by norm_num
  rw [e7] at hb
  obtain ⟨h1, h2⟩ := hb
  norm_num at h1 h2
  simp only [correctlyRounded, binary32]
  have h := roundNE_eq_of_pos 24 (Real.exp (-7)) (-11) 15666013
    (by norm_num; linarith) (by norm_num; linarith)
    (by norm_num; linarith) (by norm_num; linarith)
  rw [h]
  norm_num

/-- C9 (as stated, refuted): in binary32 arithmetic the two kernels differ at `z = -7`:
`Sigmoid(-7) = 15651740 / 2^34` and `StableSigmoid(-7) = 15651741 / 2^34`. -/
theorem StableSigmoid_ne_Sigmoid_binary32 :
    Rounded.Sigmoid binary32 (correctlyRounded binary32 Real.exp) (-7) = 15651740 / 2 ^ 34 ∧
    Rounded.StableSigmoid binary32 (correctlyRounded binary32 Real.exp) (-7) =
      15651741 / 2 ^ 34 ∧
    Rounded.StableSigmoid binary32 (correctlyRounded binary32 Real.exp) (-7) ≠
      Rounded.Sigmoid binary32 (correctlyRounded binary32 Real.exp) (-7) := by
  have hL : Rounded.Sigmoid binary32 (correctlyRounded binary32 Real.exp) (-7) =
      15651740 / 2 ^ 34 := by
    have hD : binary32 ((8983619 / 2 ^ 13 : ℝ) + 1) = 8991811 / 2 ^ 13 := by
      have h := roundNE_eq_of_pos 24 ((8983619 / 2 ^ 13 : ℝ) + 1) 10 8991811
        (by norm_num) (by norm_num) (by norm_num) (by norm_num)
      simp only [binary32]
      rw [h]
      norm_num
    have hQ : binary32 (1 / (8991811 / 2 ^ 13 : ℝ)) = 15651740 / 2 ^ 34 := by
      have h := roundNE_eq_of_pos 24 (1 / (8991811 / 2 ^ 13 : ℝ)) (-11) 15651740
        (by norm_num) (by norm_num) (by norm_num) (by norm_num)
      simp only [binary32]
      rw [h]
      norm_num
    simp only [Rounded.Sigmoid, neg_neg]
    rw [exp_seven_binary32, hD, hQ]
  have hS : Rounded.StableSigmoid binary32 (correctlyRounded binary32 Real.exp) (-7) =
      15651741 / 2 ^ 34 := by
    have hneg : ¬ ((-7 : ℝ) > 0) := by norm_num
    have habs : -fabs_ (-7 : ℝ) = -7 := by
      simp only [fabs_]
      norm_num
    have hD : binary32 (1 + (15666013 / 2 ^ 34 : ℝ)) = 8396257 / 2 ^ 23 := by
      have h := roundNE_eq_of_pos 24 (1 + (15666013 / 2 ^ 34 : ℝ)) 0 8396257
        (by norm_num) (by norm_num) (by norm_num) (by norm_num)
      simp only [binary32]
      rw [h]
      norm_num
    have hQ : binary32 ((15666013 / 2 ^ 34 : ℝ) / (8396257 / 2 ^ 23)) = 15651741 / 2 ^ 34 := by
      have h := roundNE_eq_of_pos 24 ((15666013 / 2 ^ 34 : ℝ) / (8396257 / 2 ^ 23)) (-11)
        15651741 (by norm_num) (by norm_num) (by norm_num) (by norm_num)
      simp only [binary32]
      rw [h]
      norm_num
    simp only [Rounded.StableSigmoid, if_neg hneg, habs]
    rw [exp_neg_seven_binary32, hD, hQ]
  refine ⟨hL, hS, ?_⟩
  rw [hL, hS]
  norm_num

end Binary32Evaluations

section Binary32Logarithm

end Binary32Logarithm

end CNTK
